import Mathlib

/-!
Shallow embedding of the webscrapetools key-value store
(`src/webscrapetools/keyvalue.py`, `src/webscrapetools/urlcaching.py`,
`src/webscrapetools/osaccess.py`).

The filesystem is modelled as a finite tree of directories and files
(`Fs`); directory listings are the stored entry lists, in creation
order, matching `os.listdir` on the model filesystem.  Paths are
rendered as strings joined with `/` (the POSIX `os.path.sep`), and the
store root path is assumed absolute and normalised so that
`os.path.abspath` is the identity on the joined paths the code builds.

Dates (`datetime`) are modelled as abstract day numbers (`Nat`),
rendered into the index file as 8-digit zero-padded decimal stamps;
`strftime('%Y%m%d')` / `strptime` / `timedelta(days=..)` are modelled
by that rendering, its parse, and subtraction of day counts.  This
preserves the order and difference structure the code relies on.

Python exceptions are modelled with `Except StoreErr`.  Functions of
this repository that its code imports but whose definitions are not
under `src/` (the `osaccess` wrappers `gen_directories_under`,
`gen_files_under`, `merge_directory_paths`, `save_content`,
`append_content`, `load_file_lines`, `save_lines`, and the store
facade `retrieve_from_store`) are modelled from the spec where marked.
-/

/-- Errors standing for the Python exceptions the store code can raise. -/
inductive StoreErr where
  /-- the "Inconsistent cache tree" `Exception` raised by `find_node` -/
  | inconsistentTree
  /-- `FileNotFoundError` from `open` on a missing file -/
  | fileMissing
  /-- the NotFound condition of `retrieve_from_store(fail_on_missing=True)` -/
  | notFound
  /-- `IndexError` from `line.split(' ')[1]` on a line with one token -/
  | indexOutOfRange
  /-- `ValueError` from tuple unpacking or date parsing -/
  | badValue
  /-- `TypeError` from `os.path.sep.join` applied to `None` -/
  | noneJoin
  /-- `RuntimeError` raised by `open_url` on a rejection marker -/
  | rejected
  /-- model artifact: recursion budget for the rebalance pass ran out -/
  | fuelExhausted
  deriving DecidableEq, Repr

deriving instance DecidableEq for Except

/-- Lowercase hexadecimal digit characters, as produced by
`hexdigest()` and by `'%0.40X' % n` followed by `.lower()`. -/
def isHexLowerChar (c : Char) : Bool :=
  ('0' ≤ c && c ≤ '9') || ('a' ≤ c && c ≤ 'f')

/-- Value of a hexadecimal digit character (upper or lower case), as
accepted by Python `int(s, 16)`; `none` on a non-digit. -/
def hexCharVal (c : Char) : Option Nat :=
  if '0' ≤ c && c ≤ '9' then some (c.toNat - 48)
  else if 'a' ≤ c && c ≤ 'f' then some (c.toNat - 87)
  else if 'A' ≤ c && c ≤ 'F' then some (c.toNat - 55)
  else none

/-- Accumulating parse of a hexadecimal digit string. -/
def hexValCore : List Char → Nat → Option Nat
  | [], acc => some acc
  | c :: cs, acc =>
    match hexCharVal c with
    | some v => hexValCore cs (acc * 16 + v)
    | none => none

/-- Parse of a non-negative hexadecimal string, as `int(s, 16)` on a
string without a sign; `none` when `int` would raise `ValueError`. -/
def parseHexNat (s : String) : Option Nat :=
  if s.data = [] then none else hexValCore s.data 0

/-- Python `int(s, 16)`, including an optional leading minus sign. -/
def parseHexInt (s : String) : Option Int :=
  match s.data with
  | [] => none
  | c :: rest =>
    if c = '-' then
      if rest = [] then none else (hexValCore rest 0).map (fun n => -(n : Int))
    else (parseHexNat s).map Int.ofNat

/-- Uppercase hexadecimal digit character, as in Python `'%X'` format. -/
def hexDigitUpper (n : Nat) : Char :=
  if n < 10 then Char.ofNat (48 + n) else Char.ofNat (55 + n)

/-- Digits of `n` in base 16, most significant first, with a recursion
budget (`fuel` of 40 covers every value below `16 ^ 40`, which bounds
all values the store renders). -/
def hexDigitsAux : Nat → Nat → List Char
  | 0, _ => []
  | fuel + 1, n =>
    if n = 0 then [] else hexDigitsAux fuel (n / 16) ++ [hexDigitUpper (n % 16)]

/-- Python `'%X' % n` for a non-negative value below `16 ^ 40`. -/
def pyHexUpper (n : Nat) : String :=
  if n = 0 then "0" else ⟨hexDigitsAux 40 n⟩

/-- Python `'%0.40X' % i`: zero-padded to width 40 (sign included for
negative values, which the store only produces on corrupt trees). -/
def pyHex40 (i : Int) : String :=
  if i < 0 then
    let ds := (pyHexUpper i.natAbs).data
    ⟨'-' :: (List.replicate (39 - ds.length) '0' ++ ds)⟩
  else
    let ds := (pyHexUpper i.toNat).data
    ⟨List.replicate (40 - ds.length) '0' ++ ds⟩

/-- Python `str.lower()`: lowercase every character. -/
def pyLower (s : String) : String :=
  ⟨s.data.map Char.toLower⟩

/-- Modelled from the spec: `osaccess.merge_directory_paths` is
imported by `keyvalue.py` but missing from `src/`; per spec §2 it is a
thin wrapper joining path components with the separator
(`os.path.sep.join`). -/
def mergeDirectoryPaths : List String → String
  | [] => ""
  | [p] => p
  | p :: ps => p ++ "/" ++ mergeDirectoryPaths ps

/-- `osaccess.build_file_path`: `os.path.sep.join([path, filename])`. -/
def buildFilePath (path filename : String) : String :=
  path ++ "/" ++ filename

/-- `osaccess.build_directory_path` is the same join as
`build_file_path`. -/
def buildDirectoryPath (path filename : String) : String :=
  buildFilePath path filename

/-- `osaccess.create_new_filepath`:
`os.path.abspath(os.path.sep.join([path_prefix] + path + [filename]))`,
with `abspath` the identity on the already absolute, normalised paths
the store builds. -/
def createNewFilepath (pathPre : String) (path : List String) (filename : String) : String :=
  mergeDirectoryPaths ([pathPre] ++ path ++ [filename])

/-- A directory tree: child directories (name, subtree) and plain
files (name, content), each in listing order. -/
inductive Fs where
  | node (dirs : List (String × Fs)) (files : List (String × String)) : Fs

/-- Child directories of a node, in listing order. -/
def Fs.dirs : Fs → List (String × Fs)
  | .node ds _ => ds

/-- Plain files of a node, in listing order. -/
def Fs.files : Fs → List (String × String)
  | .node _ fs => fs

/-- The empty directory. -/
def Fs.empty : Fs := .node [] []

/-- First entry of an association list with the given name. -/
def lookupName {α : Type} (l : List (String × α)) (n : String) : Option α :=
  (l.find? (fun p => p.1 = n)).map (fun p => p.2)

/-- Content of the file `name` in the directory reached from `fs` by
descending the directory names in `p`; `none` if absent. -/
def fileAt (fs : Fs) (p : List String) (name : String) : Option String :=
  match p with
  | [] => lookupName fs.files name
  | d :: rest =>
    match lookupName fs.dirs d with
    | some sub => fileAt sub rest name
    | none => none

/-- Rewrite the subtree at path `p` with `g`; identity off the tree. -/
def updateAt (fs : Fs) (p : List String) (g : Fs → Fs) : Fs :=
  match p with
  | [] => g fs
  | d :: rest =>
    .node (fs.dirs.map (fun e => if e.1 = d then (e.1, updateAt e.2 rest g) else e)) fs.files

/-- Write a file into a listing: overwrite in place, else append. -/
def saveFileEntry (files : List (String × String)) (n v : String) : List (String × String) :=
  if (lookupName files n).isSome then
    files.map (fun f => if f.1 = n then (n, v) else f)
  else
    files ++ [(n, v)]

/-- Modelled from the spec: `osaccess.save_content` (missing from
`src/`) writes the value as the content of the file, creating or
overwriting it; here applied at a tree path. -/
def saveFileAt (fs : Fs) (p : List String) (n v : String) : Fs :=
  updateAt fs p (fun t => .node t.dirs (saveFileEntry t.files n v))

/-- `osaccess.remove_file` at a tree path: deletes the file if
present; a missing file is only logged (idempotent). -/
def removeFileAt (fs : Fs) (p : List String) (n : String) : Fs :=
  updateAt fs p (fun t => .node t.dirs (t.files.filter (fun f => f.1 ≠ n)))

/-- Name of the index file (`__CACHE_INDEX_NAME`). -/
def cacheIndexName : String := "index"

/-- A 32-character lowercase hexadecimal string, the shape of
`hashlib.md5(...).hexdigest()`. -/
def isDigest (s : String) : Bool :=
  s.length = 32 && s.data.all isHexLowerChar

/-- A 40-character lowercase hexadecimal string, the shape of the
directory names the split step creates. -/
def isBoundName (s : String) : Bool :=
  s.length = 40 && s.data.all isHexLowerChar

/-- The conceptual upper bound of the whole digest space: 40 `f`s. -/
def topBound : String := ⟨List.replicate 40 'f'⟩

/-- A subtree listed among a node's directories is smaller than the node. -/
theorem sizeOf_lt_of_mem_dirs {p : String × Fs} {dirs : List (String × Fs)}
    {files : List (String × String)} (h : p ∈ dirs) :
    sizeOf p.2 < sizeOf (Fs.node dirs files) := by
  obtain ⟨a, b⟩ := p
  have h1 : sizeOf (a, b) < sizeOf dirs := List.sizeOf_lt_of_mem h
  have h2 : sizeOf (a, b) = 1 + sizeOf a + sizeOf b := by simp
  have h3 : sizeOf (Fs.node dirs files) = 1 + sizeOf dirs + sizeOf files := by simp
  show sizeOf b < sizeOf (Fs.node dirs files)
  omega

/-- `keyvalue.find_node(digest, path)`, returning the relative path of
the located node.  `gen_directories_under` is modelled from the spec
(missing from `src/`) as the child-directory listing, empty exactly on
a leaf; the loop takes the first listed directory whose name compares
`≥` the digest, and raises the inconsistent-tree error when the node
has directories but none matches. -/
def findNode (digest : String) : Fs → Except StoreErr (List String)
  | .node [] _ => .ok []
  | .node (e :: es) _ =>
    match h : (e :: es).find? (fun p => decide (digest ≤ p.1)) with
    | some hit => (findNode digest hit.2).map (fun rest => hit.1 :: rest)
    | none => .error .inconsistentTree
termination_by fs => sizeOf fs
decreasing_by
  exact sizeOf_lt_of_mem_dirs (List.mem_of_find?_eq_some h)

/-- `urlcaching.find_node`, translated faithfully: there
`get_directories_under` returns a generator, so `if not directories:`
is always false (a generator object is truthy even when exhausted) and
the leaf branch is unreachable; on a leaf the loop finds no directory
and the function raises the inconsistent-tree error. -/
def urlFindNode (digest : String) : Fs → Except StoreErr (List String)
  | .node dirs _ =>
    match h : dirs.find? (fun p => decide (digest ≤ p.1)) with
    | some hit => (urlFindNode digest hit.2).map (fun rest => hit.1 :: rest)
    | none => .error .inconsistentTree
termination_by fs => sizeOf fs
decreasing_by
  exact sizeOf_lt_of_mem_dirs (List.mem_of_find?_eq_some h)

/-- `_divide_node` (keyvalue.py lines 98-113) reduced to the names of
the two child directories it creates; `rebalanceGo` joins them back
into the full paths `new_path_1`/`new_path_2`.  The `.error` case
models the `ValueError` of `int(nodes_path[-1], 16)` on a
non-hexadecimal directory name. -/
def divideNodeNames (nodesPath : List String) : Except StoreErr (String × String) :=
  let newNodeSupInit : String := ⟨List.replicate 40 'F'⟩
  let newNodeInfInit : String := ⟨'7' :: List.replicate 39 'F'⟩
  match nodesPath with
  | [] => .ok (pyLower newNodeInfInit, pyLower newNodeSupInit)
  | n :: ns =>
    let newNodeSup := (n :: ns).getLastD ""
    match parseHexInt newNodeSup with
    | none => .error .badValue
    | some supV =>
      let level := (n :: ns).length
      let newNodeDiff : Nat :=
        (((parseHexNat newNodeSupInit).getD 0) - ((parseHexNat newNodeInfInit).getD 0)) >>> level
      let newNodeInf := pyHex40 (supV - (newNodeDiff : Int))
      .ok (pyLower newNodeInf, pyLower newNodeSup)

/-- The store's module-level configuration (`__MAX_NODE_FILES`,
`__REBALANCING_LIMIT`, `__EXPIRY_DAYS`). -/
structure Config where
  maxNodeFiles : Nat
  rebalancingLimit : Nat
  expiryDays : Nat

mutual

/-- One pass of `rebalance_cache_tree` over the subtree `cur` reached
by `nodesPath` under the store root `root`, with a recursion budget
(the source recursion need not terminate once the split width
underflows to zero).  The capped count models
`_generator_count(itertools.islice(files_node, max + 1))`; the move
step compares full path strings exactly as the source does; the
children are created lower-name first, so the listing order of a split
is `[lower, upper]`. -/
def rebalanceGo (cfg : Config) (root : String) : Nat → Fs → List String → Except StoreErr Fs
  | 0, _, _ => .error .fuelExhausted
  | fuel + 1, cur, nodesPath => do
    let currentPath := mergeDirectoryPaths ([root] ++ nodesPath)
    let filesNode := cur.files.filter (fun f => decide (f.1 ≠ cacheIndexName))
    let rebalancingRequired :=
      (filesNode.take (cfg.maxNodeFiles + 1)).length > cfg.maxNodeFiles
    let cur1 ←
      if rebalancingRequired then do
        let names ← divideNodeNames nodesPath
        let newPath1 := createNewFilepath root nodesPath names.1
        let dirs1 := if (lookupName cur.dirs names.1).isSome then cur.dirs
                     else cur.dirs ++ [(names.1, Fs.empty)]
        let dirs2 := if (lookupName dirs1 names.2).isSome then dirs1
                     else dirs1 ++ [(names.2, Fs.empty)]
        let dirs3 := filesNode.foldl (fun ds f =>
          let target :=
            if buildFilePath currentPath f.1 ≤ newPath1 then names.1 else names.2
          ds.map (fun e =>
            if e.1 = target then (e.1, Fs.node e.2.dirs (saveFileEntry e.2.files f.1 f.2))
            else e)) dirs2
        pure (Fs.node dirs3 (cur.files.filter (fun f => decide (f.1 = cacheIndexName))))
      else
        pure cur
    let newDirs ← rebalanceDirs cfg root fuel cur1.dirs nodesPath
    pure (Fs.node newDirs cur1.files)
termination_by fuel _ _ => (fuel, 0)

/-- The trailing loop of `rebalance_cache_tree`: recurse into every
child directory of the (possibly just split) node, in listing order. -/
def rebalanceDirs (cfg : Config) (root : String) :
    Nat → List (String × Fs) → List String → Except StoreErr (List (String × Fs))
  | _, [], _ => .ok []
  | fuel, e :: es, nodesPath => do
    let sub ← rebalanceGo cfg root fuel e.2 (nodesPath ++ [e.1])
    let rest ← rebalanceDirs cfg root fuel es nodesPath
    pure ((e.1, sub) :: rest)
termination_by fuel l _ => (fuel, l.length + 1)

end

/-- `has_store_key` on a configured store:
`exists_path(get_store_id(key))`, with `get_store_id` routing the
injected digest (`md5(repr(key)).hexdigest()`) through `find_node`. -/
def hasStoreKeyS (dg : String → String) (fs : Fs) (key : String) :
    Except StoreErr Bool := do
  let p ← findNode (dg key) fs
  pure ((fileAt fs p (dg key)).isSome)

/-- Content of the root-level index file, if it exists
(`_fileindex_name` always names the root's `index` entry). -/
def indexContent (fs : Fs) : Option String :=
  lookupName fs.files cacheIndexName

/-- Modelled from the spec: `osaccess.append_content` (missing from
`src/`) appends text to the root index file, creating it when absent. -/
def appendIndexLine (fs : Fs) (line : String) : Fs :=
  .node fs.dirs (saveFileEntry fs.files cacheIndexName (((indexContent fs).getD "") ++ line))

/-- Python `readlines()`: the lines of a text file including their
terminating newline; a final unterminated fragment is its own line. -/
def pyReadLinesAux : List Char → List Char → List String
  | [], cur => if cur = [] then [] else [⟨cur.reverse⟩]
  | c :: cs, cur =>
    if c = '\n' then ⟨(c :: cur).reverse⟩ :: pyReadLinesAux cs []
    else pyReadLinesAux cs (c :: cur)

/-- Modelled from the spec: `osaccess.load_file_lines` (missing from
`src/`) reads the file's lines, `readlines()`-style. -/
def pyReadLines (s : String) : List String :=
  pyReadLinesAux s.data []

/-- `osaccess.file_size`: the number of lines of the file (the source
enumerates the open file line by line). -/
def fileSize (content : String) : Nat :=
  (pyReadLines content).length

/-- `datetime.today().strftime('%Y%m%d')` under the day-number model
of dates: an 8-digit zero-padded decimal stamp. -/
def dateStr (day : Nat) : String :=
  let ds := Nat.toDigits 10 day
  ⟨List.replicate (8 - ds.length) '0' ++ ds⟩

/-- `datetime.strptime(s, '%Y%m%d')` under the day-number model:
parses exactly eight decimal digits; anything else raises. -/
def parseDate (s : String) : Option Nat :=
  if s.length = 8 && s.data.all (fun c => '0' ≤ c && c ≤ '9') then
    some (s.data.foldl (fun acc c => acc * 10 + (c.toNat - 48)) 0)
  else none

/-- `_add_to_cache(key, value)`: write the content file at the leaf
`find_node` selects (the file name is the digest:
`get_file_from_filepath(build_file_path(node, digest)) = digest`,
digests being separator-free), append the index line, then run the
rebalance pass when the index line count is an exact multiple of
`__REBALANCING_LIMIT`. -/
def addToCacheS (cfg : Config) (dg : String → String) (fuel today : Nat)
    (root : String) (fs : Fs) (key value : String) : Except StoreErr Fs := do
  let digest := dg key
  let p ← findNode digest fs
  let fs1 := saveFileAt fs p digest value
  let indexEntry := dateStr today ++ " " ++ digest ++ ": \"" ++ key ++ "\"\n"
  let fs2 := appendIndexLine fs1 indexEntry
  if fileSize ((indexContent fs2).getD "") % cfg.rebalancingLimit = 0 then
    rebalanceGo cfg root fuel fs2 []
  else
    pure fs2

/-- `_get_from_cache(key)`: `load_file_content(get_store_id(key))`;
the `open` on a missing content file raises `FileNotFoundError`. -/
def getFromCacheS (dg : String → String) (fs : Fs) (key : String) :
    Except StoreErr String := do
  let p ← findNode (dg key) fs
  match fileAt fs p (dg key) with
  | some c => pure c
  | none => .error .fileMissing

/-- Python `str.split(' ')`: cut at every single space; empty pieces
are kept, and the empty string yields one empty piece. -/
def pySplitAux : List Char → List Char → List String
  | [], cur => [⟨cur.reverse⟩]
  | c :: cs, cur =>
    if c = ' ' then ⟨cur.reverse⟩ :: pySplitAux cs []
    else pySplitAux cs (c :: cur)

/-- Python `line.split(' ')`. -/
def pySplit (s : String) : List String :=
  pySplitAux s.data []

/-- Python whitespace for `str.strip()`. -/
def isPySpace (c : Char) : Bool :=
  c = ' ' || c = '\n' || c = '\t' || c = '\r'

/-- Python `str.strip()`: drop leading and trailing whitespace. -/
def pyStrip (s : String) : String :=
  ⟨((s.data.dropWhile isPySpace).reverse.dropWhile isPySpace).reverse⟩

/-- `line.split(' ')[1]`: raises `IndexError` on a line without a
second space-separated token. -/
def pySecondToken (line : String) : Except StoreErr String :=
  match (pySplit line).get? 1 with
  | some t => .ok t
  | none => .error .indexOutOfRange

/-- The per-key filtering of the index lines:
`[line for line in lines if line.split(' ')[1] != filename_digest + ':']`. -/
def filterIndexLines (digest : String) : List String → Except StoreErr (List String)
  | [] => .ok []
  | l :: ls => do
    let tok ← pySecondToken l
    let rest ← filterIndexLines digest ls
    if tok = digest ++ ":" then pure rest else pure (l :: rest)

/-- `_remove_from_cache_multiple(keys)`: load the index lines
(`load_file_lines` raises `FileNotFoundError` on a missing index),
then per key delete the content file (idempotently) and filter out the
key's index lines, finally rewrite the index from the filtered lines
(`save_lines` concatenates them, modelled from the spec).
`removeStep` is the body of the per-key loop. -/
def removeStep (dg : String → String) (st : Fs × List String) (key : String) :
    Except StoreErr (Fs × List String) := do
  let digest := dg key
  let p ← findNode digest st.1
  let fs1 := removeFileAt st.1 p digest
  let lines1 ← filterIndexLines digest st.2
  pure (fs1, lines1)

def removeMultipleS (dg : String → String) (fs : Fs) (keys : List String) :
    Except StoreErr Fs := do
  let content ← match indexContent fs with
    | some c => pure c
    | none => Except.error StoreErr.fileMissing
  let res ← keys.foldlM (removeStep dg) (fs, pyReadLines content)
  pure (.node res.1.dirs (saveFileEntry res.1.files cacheIndexName (String.join res.2)))

/-- The body of `gather_expired_keys` on one non-blank line:
`line.strip().split(' ')` must unpack into exactly three tokens and
the first must parse as a date, else the scan raises; the key is the
third token without its first and last character. -/
def gatherExpired (expiryDate : Nat) (line : String) : Except StoreErr (Option String) :=
  match pySplit (pyStrip line) with
  | [yyyymmdd, _, keyCommas] =>
    let key := (keyCommas.drop 1).dropRight 1
    match parseDate yyyymmdd with
    | some keyDate => .ok (if expiryDate > keyDate then some key else none)
    | none => .error .badValue
  | _ => .error .badValue

/-- `invalidate_expired_entries(as_of_date)`: nothing when no index
exists; otherwise scan the index line by line (`process_file_by_line`
skips lines that strip to empty), collect every key whose stored date
is strictly older than `as_of_date - expiry_days`, and remove those
keys.  `gatherStep` is the body of the per-line loop. -/
def gatherStep (expiryDate : Nat) (acc : List String) (line : String) :
    Except StoreErr (List String) := do
  if (pyStrip line).length = 0 then pure acc
  else
    match ← gatherExpired expiryDate line with
    | some k => pure (acc ++ [k])
    | none => pure acc

def invalidateExpiredS (cfg : Config) (dg : String → String) (asOfDate : Nat)
    (fs : Fs) : Except StoreErr Fs := do
  match indexContent fs with
  | none => pure fs
  | some content =>
    let expiryDate := asOfDate - cfg.expiryDays
    let expiredKeys ← (pyReadLines content).foldlM (gatherStep expiryDate) []
    removeMultipleS dg fs expiredKeys

/-- `read_cached(read_func, key)` on a configured store; the producer
may itself raise (`readFunc` returns `Except`).  An error is returned
with the pre-call tree: every mutation of the tree happens after all
fallible steps except the model's fuel artifact inside the embedded
rebalance. -/
def readCachedS (cfg : Config) (dg : String → String) (fuel today : Nat)
    (root : String) (fs : Fs) (readFunc : String → Except StoreErr String)
    (key : String) : Except StoreErr String × Fs :=
  match hasStoreKeyS dg fs key with
  | .error e => (.error e, fs)
  | .ok true => (getFromCacheS dg fs key, fs)
  | .ok false =>
    match readFunc key with
    | .error e => (.error e, fs)
    | .ok content =>
      match addToCacheS cfg dg fuel today root fs key content with
      | .error e => (.error e, fs)
      | .ok fs1 => (getFromCacheS dg fs1 key, fs1)

/-- Process-wide state: `__CACHE_FILE_PATH` (`None` until
`set_store_path`), the tree under that root, and the current working
directory, which `os.listdir(None)` lists when the path is `None`. -/
structure World where
  cachePath : Option String
  store : Fs
  cwd : Fs

/-- `is_cache_used()`. -/
def isCacheUsed (w : World) : Bool := w.cachePath.isSome

/-- `has_store_key(key)` at the module level.  Unlike every other data
operation this one is not guarded by `is_cache_used()`: with the store
unconfigured, `find_node` falls back to `path = None`,
`os.listdir(None)` lists the current working directory, and the first
`os.path.sep.join` applied to `None` raises `TypeError` (on a leaf via
`build_file_path(None, digest)` in `get_store_id`, on a matching child
via `build_directory_path(None, name)`); with listed directories and
none `≥` the digest the inconsistent-tree error is raised first. -/
def hasStoreKeyW (dg : String → String) (w : World) (key : String) :
    Except StoreErr Bool :=
  match w.cachePath with
  | some _ => hasStoreKeyS dg w.store key
  | none =>
    match w.cwd.dirs with
    | [] => .error .noneJoin
    | e :: es =>
      match (e :: es).find? (fun p => decide (dg key ≤ p.1)) with
      | some _ => .error .noneJoin
      | none => .error .inconsistentTree

/-- `read_cached` at the module level: direct pass-through to the
producer when the store is unconfigured. -/
def readCachedW (cfg : Config) (dg : String → String) (fuel today : Nat)
    (w : World) (readFunc : String → Except StoreErr String) (key : String) :
    Except StoreErr String × World :=
  match w.cachePath with
  | none => (readFunc key, w)
  | some root =>
    let r := readCachedS cfg dg fuel today root w.store readFunc key
    (r.1, { w with store := r.2 })

/-- `remove_store_key(key)`: no-op unless the cache is used. -/
def removeStoreKeyW (dg : String → String) (w : World) (key : String) :
    Except StoreErr World :=
  match w.cachePath with
  | none => .ok w
  | some _ =>
    (removeMultipleS dg w.store [key]).map (fun fs => { w with store := fs })

/-- `rebalance_store()`: no-op unless the cache is used. -/
def rebalanceStoreW (cfg : Config) (fuel : Nat) (w : World) :
    Except StoreErr World :=
  match w.cachePath with
  | none => .ok w
  | some root =>
    (rebalanceGo cfg root fuel w.store []).map (fun fs => { w with store := fs })

/-- `empty_store()`: removes everything under the root including the
index file; no-op unless the cache is used. -/
def emptyStoreW (w : World) : World :=
  match w.cachePath with
  | none => w
  | some _ => { w with store := Fs.empty }

/-- Modelled from the spec: `retrieve_from_store(key, fail_on_missing)`
is exercised by the tests but missing from `src/`.  Per spec §4.3 it
reads the content file if present; if absent it returns the sentinel
absent value, or fails with the NotFound condition when
`fail_on_missing` is requested. -/
def retrieveFromStore (dg : String → String) (fs : Fs) (key : String)
    (failOnMissing : Bool) : Except StoreErr (Option String) := do
  let p ← findNode (dg key) fs
  match fileAt fs p (dg key) with
  | some c => pure (some c)
  | none =>
    if failOnMissing then .error .notFound else pure none

/-- Python `sub in s` on strings. -/
def pyContains (s sub : String) : Bool :=
  (List.range (s.data.length + 1)).any (fun i => sub.data.isPrefixOf (s.data.drop i))

/-- The rejection check of `inner_open_url` inside `open_url`: with a
rejection marker contained in the fetched text the producer raises
`RuntimeError`; otherwise it returns the response text. -/
def innerOpenUrl (responseText : String) (rejectionMarker : Option String)
    (_requestUrl : String) : Except StoreErr String :=
  match rejectionMarker with
  | some marker =>
    if pyContains responseText marker then .error .rejected else .ok responseText
  | none => .ok responseText

/-- A sequence of `add` calls through `_add_to_cache`. -/
def addManyS (cfg : Config) (dg : String → String) (fuel today : Nat)
    (root : String) : Fs → List (String × String) → Except StoreErr Fs
  | fs, [] => .ok fs
  | fs, (k, v) :: rest => do
    let fs1 ← addToCacheS cfg dg fuel today root fs k v
    addManyS cfg dg fuel today root fs1 rest

/-- All (non-index) content files of a tree, with their contents. -/
def contentList : Fs → List (String × String)
  | .node dirs files =>
    files.filter (fun f => decide (f.1 ≠ cacheIndexName)) ++
      dirs.attach.flatMap (fun e => contentList e.1.2)
termination_by fs => sizeOf fs
decreasing_by
  exact sizeOf_lt_of_mem_dirs e.2

/-- Names of all content files of a tree. -/
def digestNames (fs : Fs) : List String := (contentList fs).map (fun f => f.1)

/-- Every leaf directory of the tree holds at most `m` content files. -/
def leavesBounded (m : Nat) : Fs → Bool
  | .node [] files => decide ((files.filter (fun f => decide (f.1 ≠ cacheIndexName))).length ≤ m)
  | .node (e :: es) _ => (e :: es).attach.all (fun d => leavesBounded m d.1.2)
termination_by fs => sizeOf fs
decreasing_by
  exact sizeOf_lt_of_mem_dirs d.2

/-- Numeric depth condition of the invariant: the bound name parses
and its value is at least `2 ^ (160 - level) - 1`, the smallest bound
the bisection can produce at that depth. -/
def boundValOk (bound : String) (level : Nat) : Bool :=
  match parseHexNat bound with
  | some v => decide (2 ^ (160 - level) - 1 ≤ v)
  | none => false

/-- Per-node conditions of the invariant: well-formed bound within its
depth's range, no repeated file names, and every content file
digest-named and at most the bound. -/
def invBase (files : List (String × String)) (bound : String) (level : Nat) : Bool :=
  isBoundName bound && boundValOk bound level &&
  decide ((files.map (fun f => f.1)).Nodup) &&
  files.all (fun f => decide (f.1 = cacheIndexName) ||
    (isDigest f.1 && decide (f.1 ≤ bound)))

/-- Structural invariant of a configured store tree at depth `level`
with inclusive upper bound `bound`: per-node conditions everywhere;
the child listing is one of the shapes the split step creates
(creation order: lower child first), internal nodes hold no content
files, and two children partition the subtree's digests at the lower
child's name. -/
def invB : Fs → String → Nat → Bool
  | .node [] files, bound, level => invBase files bound level
  | .node [(a, t)] files, bound, level =>
    invBase files bound level && decide (a = bound) && invB t bound (level + 1) &&
    files.all (fun f => decide (f.1 = cacheIndexName))
  | .node [(a, t1), (b, t2)] files, bound, level =>
    invBase files bound level && decide (b = bound) && decide (a ≤ b) && decide (a ≠ b) &&
    invB t1 a (level + 1) && invB t2 b (level + 1) &&
    (digestNames t2).all (fun d => decide (¬ (d ≤ a))) &&
    files.all (fun f => decide (f.1 = cacheIndexName))
  | .node (_ :: _ :: _ :: _) _, _, _ => false
termination_by fs => sizeOf fs
decreasing_by
  all_goals simp_wf
  all_goals omega

/-- Invariant of a whole store tree. -/
def rootInv (fs : Fs) : Bool := invB fs topBound 0

/-! ### Character and hexadecimal-string facts -/

theorem char_le_iff_toNat {c d : Char} : c ≤ d ↔ c.toNat ≤ d.toNat := Iff.rfl

theorem char_lt_iff_toNat {c d : Char} : c < d ↔ c.toNat < d.toNat := Iff.rfl

theorem char_eq_of_toNat {c d : Char} (h : c.toNat = d.toNat) : c = d :=
  Char.eq_of_val_eq (UInt32.toNat.inj h)

/-- Digit value used by the correctness lemmas (non-digits count 0). -/
def hexDigitValD (c : Char) : Nat := (hexCharVal c).getD 0

/-- Value of a most-significant-first hexadecimal digit list. -/
def hexListVal (l : List Char) : Nat :=
  l.foldl (fun acc c => acc * 16 + hexDigitValD c) 0

theorem hexLower_cases {c : Char} (h : isHexLowerChar c = true) :
    (48 ≤ c.toNat ∧ c.toNat ≤ 57 ∧ hexCharVal c = some (c.toNat - 48) ∧
      hexDigitValD c = c.toNat - 48) ∨
    (97 ≤ c.toNat ∧ c.toNat ≤ 102 ∧ hexCharVal c = some (c.toNat - 87) ∧
      hexDigitValD c = c.toNat - 87) := by
  have hcn : ('0' : Char).toNat = 48 ∧ ('9' : Char).toNat = 57 ∧
      ('a' : Char).toNat = 97 ∧ ('f' : Char).toNat = 102 := ⟨rfl, rfl, rfl, rfl⟩
  obtain ⟨h0, h9, ha, hf⟩ := hcn
  simp only [isHexLowerChar, Bool.or_eq_true, Bool.and_eq_true, decide_eq_true_eq] at h
  rcases h with ⟨h1, h2⟩ | ⟨h1, h2⟩
  · have k1 : 48 ≤ c.toNat := by
      have := char_le_iff_toNat.mp h1
      omega
    have k2 : c.toNat ≤ 57 := by
      have := char_le_iff_toNat.mp h2
      omega
    have hv : hexCharVal c = some (c.toNat - 48) := by
      simp [hexCharVal, h1, h2]
    exact Or.inl ⟨k1, k2, hv, by simp [hexDigitValD, hv]⟩
  · have k1 : 97 ≤ c.toNat := by
      have := char_le_iff_toNat.mp h1
      omega
    have k2 : c.toNat ≤ 102 := by
      have := char_le_iff_toNat.mp h2
      omega
    have hn : ¬ (('0' : Char) ≤ c ∧ c ≤ '9') := by
      rintro ⟨-, hc9⟩
      have := char_le_iff_toNat.mp hc9
      omega
    have hv : hexCharVal c = some (c.toNat - 87) := by
      simp only [hexCharVal]
      rw [if_neg, if_pos]
      · simp [h1, h2]
      · simp only [Bool.and_eq_true, decide_eq_true_eq]
        exact hn
    exact Or.inr ⟨k1, k2, hv, by simp [hexDigitValD, hv]⟩

theorem hexLower_isSome {c : Char} (h : isHexLowerChar c = true) :
    (hexCharVal c).isSome := by
  rcases hexLower_cases h with ⟨-, -, hv, -⟩ | ⟨-, -, hv, -⟩ <;> simp [hv]

theorem hexLower_dv_lt {c : Char} (h : isHexLowerChar c = true) :
    hexDigitValD c < 16 := by
  rcases hexLower_cases h with ⟨k1, k2, -, hd⟩ | ⟨k1, k2, -, hd⟩ <;> omega

theorem hexLower_le_iff {c d : Char} (hc : isHexLowerChar c = true)
    (hd : isHexLowerChar d = true) : c ≤ d ↔ hexDigitValD c ≤ hexDigitValD d := by
  rw [char_le_iff_toNat]
  rcases hexLower_cases hc with ⟨k1, k2, -, e1⟩ | ⟨k1, k2, -, e1⟩ <;>
    rcases hexLower_cases hd with ⟨m1, m2, -, e2⟩ | ⟨m1, m2, -, e2⟩ <;>
    rw [e1, e2] <;> omega

theorem hexLower_lt_iff {c d : Char} (hc : isHexLowerChar c = true)
    (hd : isHexLowerChar d = true) : c < d ↔ hexDigitValD c < hexDigitValD d := by
  rw [char_lt_iff_toNat]
  rcases hexLower_cases hc with ⟨k1, k2, -, e1⟩ | ⟨k1, k2, -, e1⟩ <;>
    rcases hexLower_cases hd with ⟨m1, m2, -, e2⟩ | ⟨m1, m2, -, e2⟩ <;>
    rw [e1, e2] <;> omega

theorem hexLower_eq_of_dv {c d : Char} (hc : isHexLowerChar c = true)
    (hd : isHexLowerChar d = true) (h : hexDigitValD c = hexDigitValD d) : c = d := by
  apply char_eq_of_toNat
  rcases hexLower_cases hc with ⟨k1, k2, -, e1⟩ | ⟨k1, k2, -, e1⟩ <;>
    rcases hexLower_cases hd with ⟨m1, m2, -, e2⟩ | ⟨m1, m2, -, e2⟩ <;> omega

theorem hexfold_from (l : List Char) (acc : Nat) :
    l.foldl (fun a c => a * 16 + hexDigitValD c) acc
      = acc * 16 ^ l.length + hexListVal l := by
  induction l generalizing acc with
  | nil => simp [hexListVal]
  | cons c cs ih =>
    simp only [List.foldl_cons, List.length_cons, hexListVal]
    rw [ih (acc * 16 + hexDigitValD c)]
    have h2 : cs.foldl (fun a c => a * 16 + hexDigitValD c) (0 * 16 + hexDigitValD c)
        = (0 * 16 + hexDigitValD c) * 16 ^ cs.length + hexListVal cs := ih _
    rw [h2]
    ring

theorem hexListVal_cons (c : Char) (cs : List Char) :
    hexListVal (c :: cs) = hexDigitValD c * 16 ^ cs.length + hexListVal cs := by
  have h := hexfold_from cs (hexDigitValD c)
  simp only [hexListVal, List.foldl_cons]
  rw [show (0 * 16 + hexDigitValD c) = hexDigitValD c by omega]
  exact h

theorem hexListVal_append_single (l : List Char) (c : Char) :
    hexListVal (l ++ [c]) = hexListVal l * 16 + hexDigitValD c := by
  simp [hexListVal, List.foldl_append]

theorem hexListVal_lt (l : List Char) (h : ∀ c ∈ l, isHexLowerChar c = true) :
    hexListVal l < 16 ^ l.length := by
  induction l with
  | nil => simp [hexListVal]
  | cons c cs ih =>
    rw [hexListVal_cons, List.length_cons, pow_succ]
    have h1 : hexDigitValD c < 16 := hexLower_dv_lt (h c (by simp))
    have h2 : hexListVal cs < 16 ^ cs.length := ih (fun x hx => h x (by simp [hx]))
    calc hexDigitValD c * 16 ^ cs.length + hexListVal cs
        < hexDigitValD c * 16 ^ cs.length + 16 ^ cs.length := by omega
      _ = (hexDigitValD c + 1) * 16 ^ cs.length := by ring
      _ ≤ 16 * 16 ^ cs.length := by
          exact Nat.mul_le_mul_right _ (by omega)
      _ = 16 ^ cs.length * 16 := by ring

theorem hexValCore_eq_of_hex (l : List Char) (acc : Nat)
    (h : ∀ c ∈ l, isHexLowerChar c = true ∨ (hexCharVal c).isSome = true) :
    hexValCore l acc = some (l.foldl (fun a c => a * 16 + hexDigitValD c) acc) := by
  induction l generalizing acc with
  | nil => simp [hexValCore]
  | cons c cs ih =>
    have hs : (hexCharVal c).isSome = true := by
      rcases h c (by simp) with hc | hc
      · exact hexLower_isSome hc
      · exact hc
    obtain ⟨v, hv⟩ := Option.isSome_iff_exists.mp hs
    simp only [hexValCore, hv, List.foldl_cons]
    have hd : hexDigitValD c = v := by simp [hexDigitValD, hv]
    rw [hd]
    exact ih _ (fun x hx => h x (by simp [hx]))

theorem parseHexNat_of_lower {s : String} (h : s.data.all isHexLowerChar = true)
    (hne : s.data ≠ []) : parseHexNat s = some (hexListVal s.data) := by
  simp only [parseHexNat, if_neg hne]
  have := hexValCore_eq_of_hex s.data 0
    (fun c hc => Or.inl (by exact List.all_eq_true.mp h c hc))
  rw [this]
  rfl

/-! ### String order bridges -/

theorem str_lt_iff_lex (s t : String) : s < t ↔ List.Lex (· < ·) s.data t.data := by
  rw [String.lt_iff_toList_lt]
  exact Iff.rfl

theorem str_le_iff_not_lex (s t : String) : s ≤ t ↔ ¬ List.Lex (· < ·) t.data s.data := by
  rw [← str_lt_iff_lex]
  exact not_lt

theorem hex_msd_lt {d₁ d₂ v₁ v₂ k : Nat} (hd : d₁ < d₂) (hv : v₁ < k) :
    d₁ * k + v₁ < d₂ * k + v₂ := by
  have h1 : (d₁ + 1) * k = d₁ * k + k := by ring
  have h2 : (d₁ + 1) * k ≤ d₂ * k := Nat.mul_le_mul_right k (by omega)
  omega

theorem hexLex_iff_val_lt {l₁ l₂ : List Char} (hlen : l₁.length = l₂.length)
    (h₁ : ∀ c ∈ l₁, isHexLowerChar c = true) (h₂ : ∀ c ∈ l₂, isHexLowerChar c = true) :
    List.Lex (· < ·) l₁ l₂ ↔ hexListVal l₁ < hexListVal l₂ := by
  induction l₁ generalizing l₂ with
  | nil =>
    cases l₂ with
    | nil => simp [hexListVal]
    | cons c cs => simp at hlen
  | cons c₁ t₁ ih =>
    cases l₂ with
    | nil => simp at hlen
    | cons c₂ t₂ =>
      have hlen' : t₁.length = t₂.length := by simpa using hlen
      have hc₁ : isHexLowerChar c₁ = true := h₁ c₁ (by simp)
      have hc₂ : isHexLowerChar c₂ = true := h₂ c₂ (by simp)
      have ht₁ : ∀ c ∈ t₁, isHexLowerChar c = true := fun c hc => h₁ c (by simp [hc])
      have ht₂ : ∀ c ∈ t₂, isHexLowerChar c = true := fun c hc => h₂ c (by simp [hc])
      have hb₁ : hexListVal t₁ < 16 ^ t₂.length := by
        rw [← hlen']
        exact hexListVal_lt t₁ ht₁
      have hb₂ : hexListVal t₂ < 16 ^ t₂.length := hexListVal_lt t₂ ht₂
      rw [hexListVal_cons, hexListVal_cons, hlen']
      constructor
      · intro h
        cases h with
        | rel hr =>
          exact hex_msd_lt ((hexLower_lt_iff hc₁ hc₂).mp hr) hb₁
        | cons hr =>
          have hv := (ih hlen' ht₁ ht₂).mp hr
          omega
      · intro h
        rcases lt_trichotomy c₁ c₂ with hlt | heq | hgt
        · exact List.Lex.rel hlt
        · subst heq
          exact List.Lex.cons ((ih hlen' ht₁ ht₂).mpr (by omega))
        · exfalso
          have hk : hexDigitValD c₂ * 16 ^ t₂.length + hexListVal t₂
              < hexDigitValD c₁ * 16 ^ t₂.length + hexListVal t₁ :=
            hex_msd_lt ((hexLower_lt_iff hc₂ hc₁).mp hgt) hb₂
          omega

theorem hexStr_lt_iff {s t : String} (hs : s.data.all isHexLowerChar = true)
    (ht : t.data.all isHexLowerChar = true) (hlen : s.length = t.length) :
    s < t ↔ hexListVal s.data < hexListVal t.data := by
  rw [str_lt_iff_lex]
  have hl : s.data.length = t.data.length := by
    rw [String.length_data, String.length_data]
    exact hlen
  exact hexLex_iff_val_lt hl (List.all_eq_true.mp hs) (List.all_eq_true.mp ht)

theorem hexStr_le_iff {s t : String} (hs : s.data.all isHexLowerChar = true)
    (ht : t.data.all isHexLowerChar = true) (hlen : s.length = t.length) :
    s ≤ t ↔ hexListVal s.data ≤ hexListVal t.data := by
  constructor
  · intro h
    by_contra hv
    have : t < s := (hexStr_lt_iff ht hs hlen.symm).mpr (by omega)
    exact absurd h (not_le.mpr this)
  · intro h
    by_contra hs'
    have : t < s := not_le.mp hs'
    have := (hexStr_lt_iff ht hs hlen.symm).mp this
    omega

theorem hexStr_eq_of_val {s t : String} (hs : s.data.all isHexLowerChar = true)
    (ht : t.data.all isHexLowerChar = true) (hlen : s.length = t.length)
    (hv : hexListVal s.data = hexListVal t.data) : s = t := by
  have h1 : s ≤ t := (hexStr_le_iff hs ht hlen).mpr (by omega)
  have h2 : t ≤ s := (hexStr_le_iff ht hs hlen.symm).mpr (by omega)
  exact le_antisymm h1 h2

theorem lex_lt_replicate_f : ∀ (n : Nat) (l : List Char),
    (∀ c ∈ l, isHexLowerChar c = true) → l.length < n →
    List.Lex (· < ·) l (List.replicate n 'f')
  | 0, l, _, h => absurd h (by omega)
  | n + 1, [], _, _ => by
    rw [List.replicate_succ]
    exact List.Lex.nil
  | n + 1, c :: t, hwf, hlen => by
    rw [List.replicate_succ]
    have hc : isHexLowerChar c = true := hwf c (by simp)
    have hle : c ≤ 'f' := by
      rw [char_le_iff_toNat]
      rcases hexLower_cases hc with ⟨k1, k2, -, -⟩ | ⟨k1, k2, -, -⟩ <;>
        simp only [show ('f' : Char).toNat = 102 from rfl] <;> omega
    rcases lt_or_eq_of_le hle with hlt | heq
    · exact List.Lex.rel hlt
    · subst heq
      exact List.Lex.cons (lex_lt_replicate_f n t
        (fun x hx => hwf x (by simp [hx])) (by simpa using hlen))

theorem isDigest_spec {d : String} (h : isDigest d = true) :
    d.length = 32 ∧ d.data.all isHexLowerChar = true := by
  simp only [isDigest, Bool.and_eq_true, decide_eq_true_eq] at h
  exact h

theorem isBoundName_spec {b : String} (h : isBoundName b = true) :
    b.length = 40 ∧ b.data.all isHexLowerChar = true := by
  simp only [isBoundName, Bool.and_eq_true, decide_eq_true_eq] at h
  exact h

theorem isDigest_lt_topBound {d : String} (h : isDigest d = true) : d < topBound := by
  obtain ⟨hlen, hwf⟩ := isDigest_spec h
  rw [str_lt_iff_lex]
  show List.Lex (· < ·) d.data (List.replicate 40 'f')
  apply lex_lt_replicate_f 40 d.data (List.all_eq_true.mp hwf)
  rw [String.length_data, hlen]
  omega

theorem isDigest_le_topBound {d : String} (h : isDigest d = true) : d ≤ topBound :=
  le_of_lt (isDigest_lt_topBound h)

theorem isDigest_ne_index {d : String} (h : isDigest d = true) : d ≠ cacheIndexName := by
  intro he
  have h1 := (isDigest_spec h).1
  rw [he] at h1
  exact absurd h1 (by decide)

/-! ### Path-string facts -/

theorem lex_append_cancel_left {p a b : List Char} :
    List.Lex (· < ·) (p ++ a) (p ++ b) ↔ List.Lex (· < ·) a b := by
  constructor
  · intro h
    induction p with
    | nil => exact h
    | cons c cs ih =>
      apply ih
      cases h with
      | rel hr => exact absurd hr (lt_irrefl c)
      | cons hr => exact hr
  · intro h
    exact List.Lex.append_left _ h p

theorem str_append_le_iff {p a b : String} : p ++ a ≤ p ++ b ↔ a ≤ b := by
  rw [str_le_iff_not_lex, str_le_iff_not_lex, String.data_append, String.data_append,
    lex_append_cancel_left]

theorem buildFilePath_le_iff {cur a b : String} :
    buildFilePath cur a ≤ buildFilePath cur b ↔ a ≤ b :=
  str_append_le_iff

theorem mergeDirectoryPaths_append_single (xs : List String) (y : String) (h : xs ≠ []) :
    mergeDirectoryPaths (xs ++ [y]) = mergeDirectoryPaths xs ++ "/" ++ y := by
  induction xs with
  | nil => exact absurd rfl h
  | cons a as ih =>
    cases as with
    | nil => simp [mergeDirectoryPaths]
    | cons b bs =>
      have h1 := ih (by simp)
      show a ++ "/" ++ mergeDirectoryPaths ((b :: bs) ++ [y])
        = a ++ "/" ++ mergeDirectoryPaths (b :: bs) ++ "/" ++ y
      rw [h1]
      simp [String.append_assoc]

theorem createNewFilepath_eq (root : String) (nodes : List String) (y : String) :
    createNewFilepath root nodes y
      = buildFilePath (mergeDirectoryPaths ([root] ++ nodes)) y := by
  show mergeDirectoryPaths ([root] ++ nodes ++ [y]) = _
  rw [mergeDirectoryPaths_append_single ([root] ++ nodes) y (by simp)]
  rfl

/-! ### Rendering facts: Python hex formatting and lowering -/

/-- Uppercase hexadecimal digit characters, the output alphabet of
Python `'%X'`. -/
def isHexUpperChar (c : Char) : Bool :=
  ('0' ≤ c && c ≤ '9') || ('A' ≤ c && c ≤ 'F')

theorem hexUpper_cases {c : Char} (h : isHexUpperChar c = true) :
    (48 ≤ c.toNat ∧ c.toNat ≤ 57 ∧ hexDigitValD c = c.toNat - 48) ∨
    (65 ≤ c.toNat ∧ c.toNat ≤ 70 ∧ hexDigitValD c = c.toNat - 55) := by
  have ecn : ('0' : Char).toNat = 48 ∧ ('9' : Char).toNat = 57 := ⟨rfl, rfl⟩
  obtain ⟨e0, e9⟩ := ecn
  have eA : ('A' : Char).toNat = 65 := rfl
  have eF : ('F' : Char).toNat = 70 := rfl
  have ecl : ('a' : Char).toNat = 97 ∧ ('f' : Char).toNat = 102 := ⟨rfl, rfl⟩
  obtain ⟨ea, ef⟩ := ecl
  simp only [isHexUpperChar, Bool.or_eq_true, Bool.and_eq_true, decide_eq_true_eq] at h
  rcases h with ⟨h1, h2⟩ | ⟨h1, h2⟩
  · have k1 : 48 ≤ c.toNat := by
      have := char_le_iff_toNat.mp h1
      omega
    have k2 : c.toNat ≤ 57 := by
      have := char_le_iff_toNat.mp h2
      omega
    have hv : hexCharVal c = some (c.toNat - 48) := by
      simp [hexCharVal, h1, h2]
    exact Or.inl ⟨k1, k2, by simp [hexDigitValD, hv]⟩
  · have k1 : 65 ≤ c.toNat := by
      have := char_le_iff_toNat.mp h1
      omega
    have k2 : c.toNat ≤ 70 := by
      have := char_le_iff_toNat.mp h2
      omega
    have hv : hexCharVal c = some (c.toNat - 55) := by
      simp only [hexCharVal]
      rw [if_neg, if_neg, if_pos]
      · simp only [Bool.and_eq_true, decide_eq_true_eq]
        exact ⟨h1, h2⟩
      · simp only [Bool.and_eq_true, decide_eq_true_eq, not_and]
        intro hc
        have := char_le_iff_toNat.mp hc
        intro hc2
        have := char_le_iff_toNat.mp hc2
        omega
      · simp only [Bool.and_eq_true, decide_eq_true_eq, not_and]
        intro hc hc2
        have q1 := char_le_iff_toNat.mp hc
        have q2 := char_le_iff_toNat.mp hc2
        omega
    exact Or.inr ⟨k1, k2, by simp [hexDigitValD, hv]⟩

theorem hexDigitUpper_spec {m : Nat} (hm : m < 16) :
    isHexUpperChar (hexDigitUpper m) = true ∧ hexDigitValD (hexDigitUpper m) = m := by
  interval_cases m <;> exact ⟨by decide, by decide⟩

theorem toLower_hexLower {c : Char} (h : isHexLowerChar c = true) : Char.toLower c = c := by
  rcases hexLower_cases h with ⟨k1, k2, -, -⟩ | ⟨k1, k2, -, -⟩ <;>
    · unfold Char.toLower
      rw [if_neg (by omega)]

theorem toLower_hexUpper {c : Char} (h : isHexUpperChar c = true) :
    isHexLowerChar (Char.toLower c) = true ∧
    hexDigitValD (Char.toLower c) = hexDigitValD c := by
  have ecn : ('0' : Char).toNat = 48 ∧ ('9' : Char).toNat = 57 := ⟨rfl, rfl⟩
  obtain ⟨e0, e9⟩ := ecn
  have ecl : ('a' : Char).toNat = 97 ∧ ('f' : Char).toNat = 102 := ⟨rfl, rfl⟩
  obtain ⟨ea, ef⟩ := ecl
  rcases hexUpper_cases h with ⟨k1, k2, e⟩ | ⟨k1, k2, e⟩
  · have hid : Char.toLower c = c := by
      unfold Char.toLower
      rw [if_neg (by omega)]
    have hl : isHexLowerChar c = true := by
      simp only [isHexLowerChar, Bool.or_eq_true, Bool.and_eq_true, decide_eq_true_eq]
      left
      constructor <;> · rw [char_le_iff_toNat]; omega
    exact ⟨by rw [hid]; exact hl, by rw [hid]⟩
  · have hdef : Char.toLower c = Char.ofNat (c.toNat + 32) := by
      unfold Char.toLower
      rw [if_pos (by omega)]
    have htn : (Char.ofNat (c.toNat + 32)).toNat = c.toNat + 32 := by
      have hv : (c.toNat + 32).isValidChar := Or.inl (by omega)
      simp [Char.ofNat, hv]
      rfl
    have hlow : isHexLowerChar (Char.toLower c) = true := by
      simp only [isHexLowerChar, Bool.or_eq_true, Bool.and_eq_true, decide_eq_true_eq]
      right
      constructor <;> · rw [char_le_iff_toNat, hdef, htn]; omega
    have ht2 : (Char.toLower c).toNat = c.toNat + 32 := by rw [hdef]; exact htn
    refine ⟨hlow, ?_⟩
    rcases hexLower_cases hlow with ⟨m1, m2, -, e2⟩ | ⟨m1, m2, -, e2⟩ <;>
      · rw [ht2] at m1 m2
        rw [e2, ht2, e]
        omega

theorem hexListVal_map_toLower : ∀ (l : List Char), l.all isHexUpperChar = true →
    (l.map Char.toLower).all isHexLowerChar = true ∧
    hexListVal (l.map Char.toLower) = hexListVal l := by
  intro l hl
  induction l with
  | nil => simp [hexListVal]
  | cons c cs ih =>
    simp only [List.all_cons, Bool.and_eq_true] at hl
    obtain ⟨hlo, hdv⟩ := toLower_hexUpper hl.1
    obtain ⟨ih1, ih2⟩ := ih hl.2
    constructor
    · simp [List.map_cons, List.all_cons, hlo, ih1]
    · rw [List.map_cons, hexListVal_cons, hexListVal_cons, List.length_map, hdv, ih2]

theorem pyLower_spec {s : String} (h : s.data.all isHexUpperChar = true) :
    (pyLower s).data.all isHexLowerChar = true ∧
    hexListVal (pyLower s).data = hexListVal s.data ∧
    (pyLower s).length = s.length := by
  obtain ⟨h1, h2⟩ := hexListVal_map_toLower s.data h
  refine ⟨h1, h2, ?_⟩
  show (String.mk (s.data.map Char.toLower)).length = s.length
  rw [← String.length_data, ← String.length_data]
  simp

theorem pyLower_hexLower {s : String} (h : s.data.all isHexLowerChar = true) :
    pyLower s = s := by
  have haux : ∀ (l : List Char), l.all isHexLowerChar = true → l.map Char.toLower = l := by
    intro l hl
    induction l with
    | nil => rfl
    | cons c cs ih =>
      simp only [List.all_cons, Bool.and_eq_true] at hl
      simp [toLower_hexLower hl.1, ih hl.2]
  show String.mk (s.data.map Char.toLower) = s
  rw [haux s.data h]

theorem hexDigitsAux_spec : ∀ (fuel n : Nat), n < 16 ^ fuel →
    hexListVal (hexDigitsAux fuel n) = n ∧
    (hexDigitsAux fuel n).length ≤ fuel ∧
    (hexDigitsAux fuel n).all isHexUpperChar = true := by
  intro fuel
  induction fuel with
  | zero =>
    intro n hn
    have h0 : n = 0 := by simpa using hn
    subst h0
    simp [hexDigitsAux, hexListVal]
  | succ f ih =>
    intro n hn
    by_cases h0 : n = 0
    · subst h0
      simp [hexDigitsAux, hexListVal]
    · simp only [hexDigitsAux, if_neg h0]
      have hdiv : n / 16 < 16 ^ f := by
        rw [pow_succ] at hn
        omega
      obtain ⟨hv, hl, hu⟩ := ih (n / 16) hdiv
      have hm : n % 16 < 16 := Nat.mod_lt _ (by norm_num)
      obtain ⟨hu2, hd2⟩ := hexDigitUpper_spec hm
      refine ⟨?_, ?_, ?_⟩
      · rw [hexListVal_append_single, hv, hd2]
        omega
      · rw [List.length_append]
        simp only [List.length_singleton]
        omega
      · rw [List.all_append]
        simp [hu, hu2]

theorem hexListVal_replicate_zero (k : Nat) (l : List Char) :
    hexListVal (List.replicate k '0' ++ l) = hexListVal l := by
  induction k with
  | zero => simp
  | succ m ih =>
    rw [List.replicate_succ, List.cons_append, hexListVal_cons]
    have h0 : hexDigitValD '0' = 0 := rfl
    rw [h0, ih]
    omega

theorem pyHex40_nonneg_spec {n : Nat} (hn : n < 16 ^ 40) :
    (pyHex40 (n : Int)).length = 40 ∧
    (pyHex40 (n : Int)).data.all isHexUpperChar = true ∧
    hexListVal (pyHex40 (n : Int)).data = n := by
  have hnn : ¬ ((n : Int) < 0) := by omega
  have htn : (n : Int).toNat = n := Int.toNat_natCast n
  have hds : (pyHexUpper n).data.length ≤ 40 ∧
      (pyHexUpper n).data.all isHexUpperChar = true ∧
      hexListVal (pyHexUpper n).data = n := by
    by_cases h0 : n = 0
    · subst h0
      refine ⟨by decide, by decide, by decide⟩
    · obtain ⟨hv, hl, hu⟩ := hexDigitsAux_spec 40 n hn
      simp only [pyHexUpper, if_neg h0]
      exact ⟨hl, hu, hv⟩
  obtain ⟨hl40, hup, hval⟩ := hds
  simp only [pyHex40, if_neg hnn, htn]
  refine ⟨?_, ?_, ?_⟩
  · rw [← String.length_data]
    show (List.replicate (40 - (pyHexUpper n).data.length) '0' ++ (pyHexUpper n).data).length = 40
    rw [List.length_append, List.length_replicate]
    omega
  · show (List.replicate (40 - (pyHexUpper n).data.length) '0' ++
      (pyHexUpper n).data).all isHexUpperChar = true
    rw [List.all_append]
    have hz : (List.replicate (40 - (pyHexUpper n).data.length) '0').all isHexUpperChar = true := by
      simp only [List.all_eq_true]
      intro c hc
      have hc0 : c = '0' := List.eq_of_mem_replicate hc
      subst hc0
      decide
    rw [hz, hup]
    rfl
  · show hexListVal (List.replicate (40 - (pyHexUpper n).data.length) '0' ++
      (pyHexUpper n).data) = n
    exact (hexListVal_replicate_zero _ _).trans hval

theorem boundName_canonical {s : String} (h : isBoundName s = true) :
    ∃ v, parseHexNat s = some v ∧ v < 16 ^ 40 ∧
      pyLower (pyHex40 (v : Int)) = s := by
  obtain ⟨hlen, hwf⟩ := isBoundName_spec h
  have hne : s.data ≠ [] := by
    intro he
    have hl : s.data.length = s.length := String.length_data s
    rw [he, hlen] at hl
    simp at hl
  have hv40 : hexListVal s.data < 16 ^ 40 := by
    have hb := hexListVal_lt s.data (List.all_eq_true.mp hwf)
    rw [String.length_data, hlen] at hb
    exact hb
  refine ⟨hexListVal s.data, parseHexNat_of_lower hwf hne, hv40, ?_⟩
  obtain ⟨p40, pup, pval⟩ := pyHex40_nonneg_spec hv40
  obtain ⟨q1, q2, q3⟩ := pyLower_spec pup
  apply hexStr_eq_of_val q1 hwf
  · rw [q3, p40, hlen]
  · rw [q2, pval]

theorem boundName_of_render {n : Nat} (hn : n < 16 ^ 40) :
    isBoundName (pyLower (pyHex40 (n : Int))) = true ∧
    parseHexNat (pyLower (pyHex40 (n : Int))) = some n := by
  obtain ⟨p40, pup, pval⟩ := pyHex40_nonneg_spec hn
  obtain ⟨q1, q2, q3⟩ := pyLower_spec pup
  have hb : isBoundName (pyLower (pyHex40 (n : Int))) = true := by
    simp only [isBoundName, Bool.and_eq_true, decide_eq_true_eq]
    exact ⟨by rw [q3, p40], q1⟩
  refine ⟨hb, ?_⟩
  have hne : (pyLower (pyHex40 (n : Int))).data ≠ [] := by
    intro he
    have hl := String.length_data (pyLower (pyHex40 (n : Int)))
    rw [he] at hl
    rw [q3, p40] at hl
    simp at hl
  rw [parseHexNat_of_lower q1 hne, q2, pval]

/-! ### Tree utilities -/

theorem Fs.ind {P : Fs → Prop}
    (h : ∀ dirs files, (∀ e ∈ dirs, P e.2) → P (.node dirs files)) : ∀ fs, P fs
  | .node dirs files => h dirs files (fun e he => Fs.ind h e.2)
termination_by fs => sizeOf fs
decreasing_by exact sizeOf_lt_of_mem_dirs he

theorem contentList_node (dirs : List (String × Fs)) (files : List (String × String)) :
    contentList (.node dirs files) =
      files.filter (fun f => decide (f.1 ≠ cacheIndexName)) ++
        dirs.flatMap (fun e => contentList e.2) := by
  rw [contentList]
  congr 1
  conv_rhs => rw [← List.attach_map_subtype_val dirs]
  rw [List.flatMap_map]

theorem mem_contentList {x : String × String} {dirs : List (String × Fs)}
    {files : List (String × String)} :
    x ∈ contentList (.node dirs files) ↔
      (x ∈ files ∧ x.1 ≠ cacheIndexName) ∨ ∃ e ∈ dirs, x ∈ contentList e.2 := by
  rw [contentList_node]
  simp [List.mem_filter, List.mem_flatMap]

theorem mem_digestNames {d : String} {fs : Fs} :
    d ∈ digestNames fs ↔ ∃ c, (d, c) ∈ contentList fs := by
  simp only [digestNames, List.mem_map]
  constructor
  · rintro ⟨⟨n, c⟩, hm, rfl⟩
    exact ⟨c, hm⟩
  · rintro ⟨c, hm⟩
    exact ⟨(d, c), hm, rfl⟩

theorem digestNames_of_perm {t t' : Fs} (h : (contentList t').Perm (contentList t)) :
    ∀ d, d ∈ digestNames t' ↔ d ∈ digestNames t := by
  intro d
  rw [mem_digestNames, mem_digestNames]
  constructor
  · rintro ⟨c, hm⟩
    exact ⟨c, h.mem_iff.mp hm⟩
  · rintro ⟨c, hm⟩
    exact ⟨c, h.mem_iff.mpr hm⟩

theorem lookupName_cons {α : Type} (f : String × α) (l : List (String × α)) (n : String) :
    lookupName (f :: l) n = if f.1 = n then some f.2 else lookupName l n := by
  by_cases hf : f.1 = n
  · simp [lookupName, List.find?_cons, hf]
  · simp [lookupName, List.find?_cons, hf]

theorem lookupName_nil {α : Type} (n : String) : lookupName ([] : List (String × α)) n = none :=
  rfl

theorem lookupName_eq_none_iff {α : Type} {l : List (String × α)} {n : String} :
    lookupName l n = none ↔ n ∉ l.map (fun f => f.1) := by
  induction l with
  | nil => simp [lookupName_nil]
  | cons f fs ih =>
    rw [lookupName_cons]
    by_cases hf : f.1 = n
    · simp [hf]
    · simp only [if_neg hf, ih, List.map_cons, List.mem_cons]
      constructor
      · intro h hn
        rcases hn with hn | hn
        · exact hf hn.symm
        · exact h hn
      · intro h hn
        exact h (Or.inr hn)

theorem lookupName_isSome_iff {α : Type} {l : List (String × α)} {n : String} :
    (lookupName l n).isSome = true ↔ n ∈ l.map (fun f => f.1) := by
  constructor
  · intro h
    by_contra hn
    rw [← lookupName_eq_none_iff] at hn
    rw [hn] at h
    simp at h
  · intro h
    by_contra hs
    have hn : lookupName l n = none := by
      cases hl : lookupName l n
      · rfl
      · rw [hl] at hs
        simp at hs
    rw [lookupName_eq_none_iff] at hn
    exact hn h

theorem lookupName_append {α : Type} (l₁ l₂ : List (String × α)) (n : String) :
    lookupName (l₁ ++ l₂) n =
      match lookupName l₁ n with
      | some v => some v
      | none => lookupName l₂ n := by
  induction l₁ with
  | nil => simp [lookupName_nil]
  | cons f fs ih =>
    rw [List.cons_append, lookupName_cons, lookupName_cons]
    by_cases hf : f.1 = n
    · simp [hf]
    · simp only [if_neg hf]
      exact ih

theorem lookupName_mem {α : Type} {l : List (String × α)} {n : String} {v : α}
    (h : lookupName l n = some v) : (n, v) ∈ l := by
  induction l with
  | nil => simp [lookupName_nil] at h
  | cons f fs ih =>
    rw [lookupName_cons] at h
    by_cases hf : f.1 = n
    · rw [if_pos hf] at h
      obtain ⟨f1, f2⟩ := f
      simp only at hf
      subst hf
      simp only [Option.some.injEq] at h
      subst h
      exact List.mem_cons_self _ _
    · rw [if_neg hf] at h
      exact List.mem_cons_of_mem _ (ih h)

theorem lookupName_of_mem_nodup {α : Type} {l : List (String × α)} {n : String} {v : α}
    (hnd : (l.map (fun f => f.1)).Nodup) (hm : (n, v) ∈ l) : lookupName l n = some v := by
  induction l with
  | nil => simp at hm
  | cons f fs ih =>
    rw [List.map_cons, List.nodup_cons] at hnd
    rw [lookupName_cons]
    rcases List.mem_cons.mp hm with he | ht
    · subst he
      simp
    · have hf : f.1 ≠ n := by
        intro hfn
        apply hnd.1
        rw [hfn]
        exact List.mem_map.mpr ⟨(n, v), ht, rfl⟩
      rw [if_neg hf]
      exact ih hnd.2 ht

theorem saveFileEntry_map_fst (files : List (String × String)) (n v : String) :
    (saveFileEntry files n v).map (fun f => f.1) =
      if (lookupName files n).isSome then files.map (fun f => f.1)
      else files.map (fun f => f.1) ++ [n] := by
  by_cases h : (lookupName files n).isSome
  · rw [saveFileEntry, if_pos h, if_pos h, List.map_map]
    apply List.map_congr_left
    intro f _
    by_cases hf : f.1 = n <;> simp [hf]
  · rw [saveFileEntry, if_neg h, if_neg h]
    simp

theorem saveFileEntry_nodup {files : List (String × String)} {n v : String}
    (h : (files.map (fun f => f.1)).Nodup) :
    ((saveFileEntry files n v).map (fun f => f.1)).Nodup := by
  rw [saveFileEntry_map_fst]
  by_cases hp : (lookupName files n).isSome
  · rw [if_pos hp]
    exact h
  · rw [if_neg hp]
    have hn : n ∉ files.map (fun f => f.1) := by
      rw [← lookupName_eq_none_iff]
      cases hl : lookupName files n
      · rfl
      · rw [hl] at hp
        simp at hp
    simp [List.nodup_append, h, hn]

theorem lookupName_saveFileEntry_self (files : List (String × String)) (n v : String) :
    lookupName (saveFileEntry files n v) n = some v := by
  by_cases h : (lookupName files n).isSome
  · rw [saveFileEntry, if_pos h]
    obtain ⟨w, hw⟩ := Option.isSome_iff_exists.mp h
    clear h
    induction files with
    | nil => simp [lookupName_nil] at hw
    | cons f fs ih =>
      rw [lookupName_cons] at hw
      by_cases hf : f.1 = n
      · rw [List.map_cons, if_pos hf, lookupName_cons]
        simp
      · rw [if_neg hf] at hw
        rw [List.map_cons, if_neg hf, lookupName_cons, if_neg hf]
        exact ih hw
  · rw [saveFileEntry, if_neg h]
    have hnone : lookupName files n = none := by
      cases hl : lookupName files n
      · rfl
      · rw [hl] at h
        simp at h
    rw [lookupName_append, hnone, lookupName_cons]
    simp

theorem lookupName_saveFileEntry_other (files : List (String × String)) {n m : String}
    (v : String) (hnm : n ≠ m) :
    lookupName (saveFileEntry files n v) m = lookupName files m := by
  by_cases h : (lookupName files n).isSome
  · rw [saveFileEntry, if_pos h]
    clear h
    induction files with
    | nil => simp
    | cons f fs ih =>
      rw [List.map_cons]
      by_cases hf : f.1 = n
      · rw [if_pos hf, lookupName_cons, lookupName_cons,
          if_neg (show ¬ ((n, v).1 = m) from hnm),
          if_neg (show ¬ (f.1 = m) by rw [hf]; exact hnm), ih]
      · rw [if_neg hf, lookupName_cons, lookupName_cons]
        by_cases hm : f.1 = m
        · rw [if_pos hm, if_pos hm]
        · rw [if_neg hm, if_neg hm, ih]
  · rw [saveFileEntry, if_neg h]
    rw [lookupName_append]
    cases hf : lookupName files m
    · rw [lookupName_cons, if_neg (show ¬ ((n, v).1 = m) from hnm), lookupName_nil]
    · rfl

theorem mem_saveFileEntry {files : List (String × String)} {n v : String} {x : String × String} :
    x ∈ saveFileEntry files n v ↔ x = (n, v) ∨ (x ∈ files ∧ x.1 ≠ n) := by
  by_cases h : (lookupName files n).isSome
  · rw [saveFileEntry, if_pos h]
    constructor
    · intro hx
      obtain ⟨f, hf, he⟩ := List.mem_map.mp hx
      by_cases hfn : f.1 = n
      · rw [if_pos hfn] at he
        exact Or.inl he.symm
      · rw [if_neg hfn] at he
        subst he
        exact Or.inr ⟨hf, hfn⟩
    · intro hx
      rcases hx with he | ⟨hm, hne⟩
      · obtain ⟨w, hw⟩ := Option.isSome_iff_exists.mp h
        have hmem := lookupName_mem hw
        apply List.mem_map.mpr
        refine ⟨(n, w), hmem, ?_⟩
        rw [if_pos rfl, he]
      · apply List.mem_map.mpr
        refine ⟨x, hm, ?_⟩
        rw [if_neg hne]
  · rw [saveFileEntry, if_neg h]
    have hnone : lookupName files n = none := by
      cases hl : lookupName files n
      · rfl
      · rw [hl] at h
        simp at h
    have hall : ∀ f ∈ files, f.1 ≠ n := by
      intro f hf he
      rw [lookupName_eq_none_iff] at hnone
      exact hnone (List.mem_map.mpr ⟨f, hf, he⟩)
    rw [List.mem_append]
    constructor
    · intro hx
      rcases hx with hm | hm
      · exact Or.inr ⟨hm, hall x hm⟩
      · simp at hm
        exact Or.inl hm
    · intro hx
      rcases hx with he | ⟨hm, -⟩
      · right
        simp [he]
      · exact Or.inl hm

/-! ### Invariant characterisation -/

theorem boundValOk_iff {bound : String} {level : Nat} :
    boundValOk bound level = true ↔
      ∃ v, parseHexNat bound = some v ∧ 2 ^ (160 - level) - 1 ≤ v := by
  cases hp : parseHexNat bound <;> simp [boundValOk, hp]

theorem invBase_iff {files : List (String × String)} {bound : String} {level : Nat} :
    invBase files bound level = true ↔
      (isBoundName bound = true ∧
       (∃ v, parseHexNat bound = some v ∧ 2 ^ (160 - level) - 1 ≤ v) ∧
       (files.map (fun f => f.1)).Nodup ∧
       (∀ f ∈ files, f.1 = cacheIndexName ∨ (isDigest f.1 = true ∧ f.1 ≤ bound))) := by
  rw [invBase]
  simp only [Bool.and_eq_true, decide_eq_true_eq, List.all_eq_true, Bool.or_eq_true]
  rw [boundValOk_iff]
  constructor
  · rintro ⟨⟨⟨hb, hv⟩, hnd⟩, hf⟩
    exact ⟨hb, hv, hnd, hf⟩
  · rintro ⟨hb, hv, hnd, hf⟩
    exact ⟨⟨⟨hb, hv⟩, hnd⟩, hf⟩

theorem invB_base {dirs : List (String × Fs)} {files : List (String × String)}
    {bound : String} {level : Nat}
    (h : invB (.node dirs files) bound level = true) :
    invBase files bound level = true := by
  rcases dirs with - | ⟨⟨a, t⟩, - | ⟨⟨b, t2⟩, - | ⟨e3, rest⟩⟩⟩ <;>
    simp only [invB, Bool.and_eq_true] at h
  · exact h
  · exact h.1.1.1
  · exact h.1.1.1.1.1.1.1
  · exact absurd h (by simp)

theorem invB_parts {dirs : List (String × Fs)} {files : List (String × String)}
    {bound : String} {level : Nat}
    (h : invB (.node dirs files) bound level = true) :
    isBoundName bound = true ∧
    (∃ v, parseHexNat bound = some v ∧ 2 ^ (160 - level) - 1 ≤ v) ∧
    (files.map (fun f => f.1)).Nodup ∧
    (∀ f ∈ files, f.1 = cacheIndexName ∨ (isDigest f.1 = true ∧ f.1 ≤ bound)) :=
  invBase_iff.mp (invB_base h)

theorem invB_dirs_cases {dirs : List (String × Fs)} {files : List (String × String)}
    {bound : String} {level : Nat}
    (h : invB (.node dirs files) bound level = true) :
    dirs = [] ∨
    (∃ t, dirs = [(bound, t)] ∧ invB t bound (level + 1) = true ∧
      ∀ f ∈ files, f.1 = cacheIndexName) ∨
    (∃ a t1 t2, dirs = [(a, t1), (bound, t2)] ∧ a ≤ bound ∧ a ≠ bound ∧
      invB t1 a (level + 1) = true ∧ invB t2 bound (level + 1) = true ∧
      (∀ d ∈ digestNames t2, ¬ (d ≤ a)) ∧
      ∀ f ∈ files, f.1 = cacheIndexName) := by
  rcases dirs with - | ⟨⟨a, t⟩, - | ⟨⟨b, t2⟩, - | ⟨e3, rest⟩⟩⟩ <;>
    simp only [invB, Bool.and_eq_true] at h
  · exact Or.inl rfl
  · obtain ⟨⟨-, ha⟩, hi⟩ := h.1
    simp only [decide_eq_true_eq] at ha
    subst ha
    refine Or.inr (Or.inl ⟨t, rfl, h.1.2, fun f hf => ?_⟩)
    have := List.all_eq_true.mp h.2 f hf
    simpa using this
  · obtain ⟨⟨⟨⟨⟨⟨⟨-, hb⟩, hab⟩, hne⟩, hi1⟩, hi2⟩, hdg⟩, hfi⟩ := h
    simp only [decide_eq_true_eq] at hb hab hne
    subst hb
    refine Or.inr (Or.inr ⟨a, t, t2, rfl, hab, hne, hi1, hi2, fun d hd2 => ?_, fun f hf => ?_⟩)
    · have := List.all_eq_true.mp hdg d hd2
      simpa using this
    · have := List.all_eq_true.mp hfi f hf
      simpa using this
  · exact absurd h (by simp)

theorem invB_mk {dirs : List (String × Fs)} {files : List (String × String)}
    {bound : String} {level : Nat}
    (hbase : invBase files bound level = true)
    (hd : dirs = [] ∨
      (∃ t, dirs = [(bound, t)] ∧ invB t bound (level + 1) = true ∧
        ∀ f ∈ files, f.1 = cacheIndexName) ∨
      (∃ a t1 t2, dirs = [(a, t1), (bound, t2)] ∧ a ≤ bound ∧ a ≠ bound ∧
        invB t1 a (level + 1) = true ∧ invB t2 bound (level + 1) = true ∧
        (∀ d ∈ digestNames t2, ¬ (d ≤ a)) ∧
        ∀ f ∈ files, f.1 = cacheIndexName)) :
    invB (.node dirs files) bound level = true := by
  rcases hd with rfl | ⟨t, rfl, hi, hfi⟩ | ⟨a, t1, t2, rfl, hab, hne, h1, h2, hdg, hfi⟩
  · simp only [invB]
    exact hbase
  · simp only [invB, Bool.and_eq_true]
    refine ⟨⟨⟨hbase, by simp⟩, hi⟩, List.all_eq_true.mpr fun f hf => ?_⟩
    simp [hfi f hf]
  · simp only [invB, Bool.and_eq_true]
    refine ⟨⟨⟨⟨⟨⟨⟨hbase, by simp⟩, by simp [hab]⟩, by simp [hne]⟩, h1⟩, h2⟩,
      List.all_eq_true.mpr fun d hd2 => ?_⟩, List.all_eq_true.mpr fun f hf => ?_⟩
    · simp [hdg d hd2]
    · simp [hfi f hf]

theorem invB_digest_le_bound :
    ∀ fs, ∀ bound level, invB fs bound level = true → ∀ d ∈ digestNames fs, d ≤ bound := by
  apply Fs.ind
  intro dirs files ih bound level h d hd
  rw [mem_digestNames] at hd
  obtain ⟨c, hc⟩ := hd
  rw [mem_contentList] at hc
  rcases hc with ⟨hmem, hne⟩ | ⟨e, he, hsub⟩
  · rcases (invB_parts h).2.2.2 (d, c) hmem with h1 | ⟨-, h3⟩
    · exact absurd h1 hne
    · exact h3
  · rcases invB_dirs_cases h with rfl | ⟨t, rfl, hi, -⟩ | ⟨a, t1, t2, rfl, hab, -, hi1, hi2, -, -⟩
    · simp at he
    · have he2 : e = (bound, t) := by simpa using he
      subst he2
      exact ih _ he bound (level + 1) hi d (mem_digestNames.mpr ⟨c, hsub⟩)
    · rcases (by simpa using he : e = (a, t1) ∨ e = (bound, t2)) with he2 | he2
      · subst he2
        have h1 : d ≤ a := ih _ he a (level + 1) hi1 d (mem_digestNames.mpr ⟨c, hsub⟩)
        exact le_trans h1 hab
      · subst he2
        exact ih _ he bound (level + 1) hi2 d (mem_digestNames.mpr ⟨c, hsub⟩)

theorem findNode_ok_leaf (d : String) (files : List (String × String)) :
    findNode d (.node [] files) = .ok [] := by
  simp [findNode]

theorem findNode_step_some {d : String} {e : String × Fs} {es : List (String × Fs)}
    {hit : String × Fs} (files : List (String × String))
    (h : (e :: es).find? (fun p => decide (d ≤ p.1)) = some hit) :
    findNode d (.node (e :: es) files)
      = (findNode d hit.2).map (fun rest => hit.1 :: rest) := by
  rw [findNode]
  split
  · rename_i hit2 heq
    rw [h] at heq
    injection heq with h2
    rw [h2]
  · rename_i heq
    rw [h] at heq
    cases heq

theorem findNode_step_none {d : String} {e : String × Fs} {es : List (String × Fs)}
    (files : List (String × String))
    (h : (e :: es).find? (fun p => decide (d ≤ p.1)) = none) :
    findNode d (.node (e :: es) files) = .error .inconsistentTree := by
  rw [findNode]
  split
  · rename_i hit2 heq
    rw [h] at heq
    cases heq
  · rfl

theorem invB_resolve :
    ∀ fs, ∀ bound level d c, invB fs bound level = true → isDigest d = true →
      (d, c) ∈ contentList fs →
      ∃ p, findNode d fs = .ok p ∧ fileAt fs p d = some c := by
  apply Fs.ind
  intro dirs files ih bound level d c h hd hm
  rw [mem_contentList] at hm
  rcases invB_dirs_cases h with rfl | ⟨t, rfl, hi, hfi⟩ |
    ⟨a, t1, t2, rfl, hab, hne, hi1, hi2, hdg, hfi⟩
  · rcases hm with ⟨hmem, -⟩ | ⟨e, he, -⟩
    · refine ⟨[], findNode_ok_leaf d files, ?_⟩
      show lookupName files d = some c
      exact lookupName_of_mem_nodup (invB_parts h).2.2.1 hmem
    · simp at he
  · rcases hm with ⟨hmem, -⟩ | ⟨e, he, hsub⟩
    · exact absurd (hfi (d, c) hmem) (isDigest_ne_index hd)
    · have he2 : e = (bound, t) := by simpa using he
      subst he2
      have hdb : d ≤ bound := invB_digest_le_bound t bound (level + 1) hi d
        (mem_digestNames.mpr ⟨c, hsub⟩)
      obtain ⟨p, hp1, hp2⟩ := ih _ he bound (level + 1) d c hi hd hsub
      refine ⟨bound :: p, ?_, ?_⟩
      · have hfind : List.find? (fun q => decide (d ≤ q.1)) [(bound, t)] = some (bound, t) :=
          List.find?_cons_of_pos _ (decide_eq_true hdb)
        rw [findNode_step_some files hfind, hp1]
        rfl
      · show fileAt (.node [(bound, t)] files) (bound :: p) d = some c
        simp only [fileAt, Fs.dirs]
        rw [lookupName_cons, if_pos rfl]
        exact hp2
  · rcases hm with ⟨hmem, -⟩ | ⟨e, he, hsub⟩
    · exact absurd (hfi (d, c) hmem) (isDigest_ne_index hd)
    · rcases (by simpa using he : e = (a, t1) ∨ e = (bound, t2)) with he2 | he2
      · subst he2
        have hda : d ≤ a := invB_digest_le_bound t1 a (level + 1) hi1 d
          (mem_digestNames.mpr ⟨c, hsub⟩)
        obtain ⟨p, hp1, hp2⟩ := ih _ he a (level + 1) d c hi1 hd hsub
        refine ⟨a :: p, ?_, ?_⟩
        · have hfind : List.find? (fun q => decide (d ≤ q.1)) [(a, t1), (bound, t2)]
              = some (a, t1) :=
            List.find?_cons_of_pos _ (decide_eq_true hda)
          rw [findNode_step_some files hfind, hp1]
          rfl
        · simp only [fileAt, Fs.dirs]
          rw [lookupName_cons, if_pos rfl]
          exact hp2
      · subst he2
        have hdb : d ≤ bound := invB_digest_le_bound t2 bound (level + 1) hi2 d
          (mem_digestNames.mpr ⟨c, hsub⟩)
        have hnda : ¬ (d ≤ a) := hdg d (mem_digestNames.mpr ⟨c, hsub⟩)
        obtain ⟨p, hp1, hp2⟩ := ih _ he bound (level + 1) d c hi2 hd hsub
        refine ⟨bound :: p, ?_, ?_⟩
        · have hfind : List.find? (fun q => decide (d ≤ q.1)) [(a, t1), (bound, t2)]
              = some (bound, t2) := by
            rw [List.find?_cons_of_neg _ (by simpa using hnda)]
            exact List.find?_cons_of_pos _ (decide_eq_true hdb)
          rw [findNode_step_some files hfind, hp1]
          rfl
        · simp only [fileAt, Fs.dirs]
          rw [lookupName_cons, if_neg hne, lookupName_cons, if_pos rfl]
          exact hp2

/-! ### Facts about the split arithmetic -/

theorem parseHexInt_of_lower {s : String} (hwf : s.data.all isHexLowerChar = true)
    (hne : s.data ≠ []) : parseHexInt s = (parseHexNat s).map Int.ofNat := by
  rcases hd : s.data with - | ⟨c, rest⟩
  · exact absurd hd hne
  · have hc : isHexLowerChar c = true := by
      have hall := List.all_eq_true.mp hwf
      rw [hd] at hall
      exact hall c (by simp)
    have hcne : c ≠ '-' := by
      intro he
      rcases hexLower_cases hc with ⟨k1, -, -, -⟩ | ⟨k1, -, -, -⟩ <;>
        · rw [he] at k1
          have h45 : ('-' : Char).toNat = 45 := rfl
          omega
    simp only [parseHexInt, hd, if_neg hcne]


/-- The halved range width at depth `level` stays below the least
bound value at that depth. -/
theorem diff_le_bound_floor (level : Nat) :
    2 ^ 159 >>> level ≤ 2 ^ (160 - level) - 1 := by
  rw [Nat.shiftRight_eq_div_pow]
  by_cases h : level ≤ 159
  · rw [Nat.pow_div h (by norm_num)]
    have e1 : 160 - level = (159 - level) + 1 := by omega
    rw [e1, pow_succ]
    have h3 : 1 ≤ 2 ^ (159 - level) := Nat.one_le_two_pow
    omega
  · have h1 : 2 ^ 159 < 2 ^ level := Nat.pow_lt_pow_right (by norm_num) (by omega)
    rw [Nat.div_eq_of_lt h1]
    omega

/-- Bound floors shrink with depth. -/
theorem bound_floor_anti (level : Nat) :
    2 ^ (160 - (level + 1)) - 1 ≤ 2 ^ (160 - level) - 1 := by
  have h : 2 ^ (160 - (level + 1)) ≤ 2 ^ (160 - level) :=
    Nat.pow_le_pow_right (by norm_num) (by omega)
  omega

/-- Subtracting the halved width keeps a value above the next depth's
floor. -/
theorem bound_floor_sub (level : Nat) {v : Nat} (h : 2 ^ (160 - level) - 1 ≤ v) :
    2 ^ (160 - (level + 1)) - 1 ≤ v - (2 ^ 159 >>> level) := by
  rw [Nat.shiftRight_eq_div_pow]
  by_cases hl : level ≤ 159
  · rw [Nat.pow_div hl (by norm_num)]
    have e1 : 160 - level = (159 - level) + 1 := by omega
    have e2 : 160 - (level + 1) = 159 - level := by omega
    rw [e1, pow_succ] at h
    rw [e2]
    omega
  · have h1 : 2 ^ 159 < 2 ^ level := Nat.pow_lt_pow_right (by norm_num) (by omega)
    rw [Nat.div_eq_of_lt h1]
    have h3 : 2 ^ (160 - (level + 1)) ≤ 2 ^ (160 - level) :=
      Nat.pow_le_pow_right (by norm_num) (by omega)
    omega

/-- The parsed value of a well-formed bound name is its digit value,
below `16 ^ 40`. -/
theorem boundName_val {s : String} {v : Nat} (hb : isBoundName s = true)
    (hp : parseHexNat s = some v) : v = hexListVal s.data ∧ v < 16 ^ 40 := by
  obtain ⟨hlen, hwf⟩ := isBoundName_spec hb
  have hne : s.data ≠ [] := by
    intro he
    have hl := String.length_data s
    rw [he, hlen] at hl
    simp at hl
  rw [parseHexNat_of_lower hwf hne] at hp
  injection hp with hp2
  have hlt := hexListVal_lt s.data (List.all_eq_true.mp hwf)
  rw [String.length_data, hlen] at hlt
  exact ⟨hp2.symm, by omega⟩

/-- Comparison of well-formed bound names mirrors their values. -/
theorem boundName_le_iff {s t : String} {v w : Nat} (hs : isBoundName s = true)
    (ht : isBoundName t = true) (hv : parseHexNat s = some v)
    (hw : parseHexNat t = some w) : s ≤ t ↔ v ≤ w := by
  obtain ⟨hsl, hsw⟩ := isBoundName_spec hs
  obtain ⟨htl, htw⟩ := isBoundName_spec ht
  obtain ⟨he1, -⟩ := boundName_val hs hv
  obtain ⟨he2, -⟩ := boundName_val ht hw
  rw [he1, he2]
  exact hexStr_le_iff hsw htw (by rw [hsl, htl])

/-- Equal values mean equal well-formed bound names. -/
theorem boundName_eq_of_val {s t : String} {v : Nat} (hs : isBoundName s = true)
    (ht : isBoundName t = true) (hv : parseHexNat s = some v)
    (hw : parseHexNat t = some v) : s = t := by
  obtain ⟨hsl, hsw⟩ := isBoundName_spec hs
  obtain ⟨htl, htw⟩ := isBoundName_spec ht
  obtain ⟨he1, -⟩ := boundName_val hs hv
  obtain ⟨he2, -⟩ := boundName_val ht hw
  exact hexStr_eq_of_val hsw htw (by rw [hsl, htl]) (by rw [← he1, ← he2])

/-- Full analysis of `_divide_node` on an invariant-satisfying node:
it succeeds, the upper child keeps the node's bound as its name, and
the lower child renders `bound - ((MAX - mid) >> level)` as a
well-formed 40-character lowercase name. -/
theorem divideNodeNames_spec {nodesPath : List String} {bound : String} {level : Nat} {v : Nat}
    (hlen : nodesPath.length = level)
    (hroot : nodesPath = [] → bound = topBound)
    (hlast : ∀ n ns, nodesPath = n :: ns → (n :: ns).getLastD "" = bound)
    (hb : isBoundName bound = true)
    (hp : parseHexNat bound = some v)
    (hlb : 2 ^ (160 - level) - 1 ≤ v) :
    divideNodeNames nodesPath
      = .ok (pyLower (pyHex40 ((v - (2 ^ 159 >>> level) : Nat) : Int)), bound) ∧
    isBoundName (pyLower (pyHex40 ((v - (2 ^ 159 >>> level) : Nat) : Int))) = true ∧
    parseHexNat (pyLower (pyHex40 ((v - (2 ^ 159 >>> level) : Nat) : Int)))
      = some (v - (2 ^ 159 >>> level)) := by
  have hdle : (2 ^ 159 >>> level) ≤ v := le_trans (diff_le_bound_floor level) hlb
  have hvlt : v - (2 ^ 159 >>> level) < 16 ^ 40 :=
    lt_of_le_of_lt (Nat.sub_le v _) (boundName_val hb hp).2
  obtain ⟨hwf2, hp2⟩ := boundName_of_render hvlt
  refine ⟨?_, hwf2, hp2⟩
  rcases nodesPath with - | ⟨n, ns⟩
  · have hbv : bound = topBound := hroot rfl
    subst hbv
    have hv0 : v = 2 ^ 160 - 1 := by
      rw [show parseHexNat topBound = some (2 ^ 160 - 1) by decide] at hp
      injection hp with hp3
      omega
    subst hv0
    have hl0 : level = 0 := by simpa using hlen.symm
    subst hl0
    decide
  · have hlast2 : (n :: ns).getLastD "" = bound := hlast n ns rfl
    obtain ⟨-, hbwf⟩ := isBoundName_spec hb
    have hbne : bound.data ≠ [] := by
      intro he
      have hl := String.length_data bound
      rw [he, (isBoundName_spec hb).1] at hl
      simp at hl
    have hl2 : (n :: ns).length = level := hlen
    simp only [divideNodeNames, hlast2, parseHexInt_of_lower hbwf hbne, hp, Option.map_some,
      hl2]
    have hconst : ((parseHexNat ⟨List.replicate 40 'F'⟩).getD 0)
        - ((parseHexNat ⟨'7' :: List.replicate 39 'F'⟩).getD 0) = 2 ^ 159 := by decide
    rw [hconst]
    have hcast : ((v : Int) - (((2 ^ 159 : Nat) >>> level : Nat) : Int))
        = ((v - (2 ^ 159 >>> level) : Nat) : Int) := (Int.ofNat_sub hdle).symm
    show Except.ok (pyLower (pyHex40 ((v : Int) - (((2 ^ 159 : Nat) >>> level : Nat) : Int))),
        pyLower bound)
      = Except.ok (pyLower (pyHex40 ((v - (2 ^ 159 >>> level) : Nat) : Int)), bound)
    rw [hcast, pyLower_hexLower hbwf]

/-! ### Structural support for the rebalance pass -/

theorem leavesBounded_leaf {m : Nat} {files : List (String × String)} :
    leavesBounded m (.node [] files) = true ↔
      (files.filter (fun f => decide (f.1 ≠ cacheIndexName))).length ≤ m := by
  rw [leavesBounded]
  simp

theorem leavesBounded_cons {m : Nat} {e : String × Fs} {es : List (String × Fs)}
    {files : List (String × String)} :
    leavesBounded m (.node (e :: es) files) = true ↔
      ∀ x ∈ e :: es, leavesBounded m x.2 = true := by
  rw [leavesBounded]
  constructor
  · intro h x hx
    exact List.all_eq_true.mp h ⟨x, hx⟩ (List.mem_attach _ _)
  · intro h
    apply List.all_eq_true.mpr
    intro x _
    exact h x.1 x.2

theorem digestNames_leaf (files : List (String × String)) :
    digestNames (.node [] files)
      = (files.filter (fun f => decide (f.1 ≠ cacheIndexName))).map (fun f => f.1) := by
  rw [digestNames, contentList_node]
  simp

theorem invB_children {dirs : List (String × Fs)} {files : List (String × String)}
    {bound : String} {level : Nat}
    (h : invB (.node dirs files) bound level = true) :
    ∀ e ∈ dirs, invB e.2 e.1 (level + 1) = true := by
  rcases invB_dirs_cases h with rfl | ⟨t, rfl, hi, -⟩ | ⟨a, t1, t2, rfl, -, -, hi1, hi2, -, -⟩
  · simp
  · intro e he
    have he2 : e = (bound, t) := by simpa using he
    subst he2
    exact hi
  · intro e he
    rcases (by simpa using he : e = (a, t1) ∨ e = (bound, t2)) with rfl | rfl
    · exact hi1
    · exact hi2

theorem flatMap_perm_of_forall2 {l l' : List (String × Fs)}
    (h : List.Forall₂ (fun e e' => (contentList e'.2).Perm (contentList e.2)) l l') :
    (l'.flatMap (fun e => contentList e.2)).Perm (l.flatMap (fun e => contentList e.2)) := by
  induction h with
  | nil => simp
  | cons hp hrest ih =>
    simp only [List.flatMap_cons]
    exact hp.append ih

theorem saveFileEntry_of_absent {files : List (String × String)} {n : String} (v : String)
    (h : lookupName files n = none) : saveFileEntry files n v = files ++ [(n, v)] := by
  rw [saveFileEntry, if_neg]
  rw [h]
  simp

theorem take_count_gt {α : Type} (l : List α) (k : Nat) :
    ((l.take (k + 1)).length > k) ↔ l.length > k := by
  rw [List.length_take, Nat.min_def]
  split <;> omega

theorem move_fold_two {n1 n2 : String} (hne : n1 ≠ n2) (tgt : String × String → String)
    (htgt : ∀ f, tgt f = n1 ∨ tgt f = n2) :
    ∀ (fl acc1 acc2 : List (String × String)),
    (∀ f ∈ fl, lookupName acc1 f.1 = none ∧ lookupName acc2 f.1 = none) →
    ((fl.map (fun f => f.1)).Nodup) →
    fl.foldl (fun ds f =>
        ds.map (fun e =>
          if e.1 = tgt f
          then (e.1, Fs.node e.2.dirs (saveFileEntry e.2.files f.1 f.2)) else e))
      [(n1, Fs.node [] acc1), (n2, Fs.node [] acc2)]
      = [(n1, Fs.node [] (acc1 ++ fl.filter (fun f => decide (tgt f = n1)))),
         (n2, Fs.node [] (acc2 ++ fl.filter (fun f => decide (¬ (tgt f = n1)))))]
  | [], acc1, acc2, _, _ => by simp
  | f :: fl, acc1, acc2, hlk, hnd => by
    rw [List.foldl_cons]
    have hnd2 : (fl.map (fun f => f.1)).Nodup := by
      rw [List.map_cons, List.nodup_cons] at hnd
      exact hnd.2
    have hhead : f.1 ∉ fl.map (fun f => f.1) := by
      rw [List.map_cons, List.nodup_cons] at hnd
      exact hnd.1
    have hstep : ∀ (x : String × String), x ∈ fl → x.1 ≠ f.1 := by
      intro x hx he
      exact hhead (he ▸ List.mem_map.mpr ⟨x, hx, rfl⟩)
    rcases htgt f with ht | ht
    · have hmap : ([(n1, Fs.node [] acc1), (n2, Fs.node [] acc2)].map (fun e =>
          if e.1 = tgt f
          then (e.1, Fs.node e.2.dirs (saveFileEntry e.2.files f.1 f.2)) else e))
          = [(n1, Fs.node [] (acc1 ++ [(f.1, f.2)])), (n2, Fs.node [] acc2)] := by
        rw [List.map_cons, List.map_cons, List.map_nil]
        rw [ht]
        rw [if_pos rfl, if_neg (by exact fun hc => hne hc.symm)]
        rw [show (Fs.node [] acc1).dirs = [] from rfl, show (Fs.node [] acc1).files = acc1 from rfl]
        rw [saveFileEntry_of_absent f.2 (hlk f (by simp) |>.1)]
      rw [hmap]
      have := move_fold_two hne tgt htgt fl (acc1 ++ [(f.1, f.2)]) acc2
        (fun x hx => by
          constructor
          · rw [lookupName_append, (hlk x (by simp [hx])).1, lookupName_cons,
              if_neg (by exact fun hc => hstep x hx hc.symm), lookupName_nil]
          · exact (hlk x (by simp [hx])).2)
        hnd2
      rw [this]
      rw [List.filter_cons_of_pos (by simp [ht]), List.filter_cons_of_neg (by simp [ht])]
      simp
    · have htn1 : tgt f ≠ n1 := by
        rw [ht]
        exact fun hc => hne hc.symm
      have hmap : ([(n1, Fs.node [] acc1), (n2, Fs.node [] acc2)].map (fun e =>
          if e.1 = tgt f
          then (e.1, Fs.node e.2.dirs (saveFileEntry e.2.files f.1 f.2)) else e))
          = [(n1, Fs.node [] acc1), (n2, Fs.node [] (acc2 ++ [(f.1, f.2)]))] := by
        rw [List.map_cons, List.map_cons, List.map_nil]
        rw [ht]
        rw [if_neg (by exact fun hc => hne hc), if_pos rfl]
        rw [show (Fs.node [] acc2).dirs = [] from rfl, show (Fs.node [] acc2).files = acc2 from rfl]
        rw [saveFileEntry_of_absent f.2 (hlk f (by simp) |>.2)]
      rw [hmap]
      have := move_fold_two hne tgt htgt fl acc1 (acc2 ++ [(f.1, f.2)])
        (fun x hx => by
          constructor
          · exact (hlk x (by simp [hx])).1
          · rw [lookupName_append, (hlk x (by simp [hx])).2, lookupName_cons,
              if_neg (by exact fun hc => hstep x hx hc.symm), lookupName_nil])
        hnd2
      rw [this]
      rw [List.filter_cons_of_neg (by simp [htn1]), List.filter_cons_of_pos (by simp [htn1])]
      simp

theorem move_fold_one {n1 : String} (tgt : String × String → String)
    (htgt : ∀ f, tgt f = n1) :
    ∀ (fl acc : List (String × String)),
    (∀ f ∈ fl, lookupName acc f.1 = none) →
    ((fl.map (fun f => f.1)).Nodup) →
    fl.foldl (fun ds f =>
        ds.map (fun e =>
          if e.1 = tgt f
          then (e.1, Fs.node e.2.dirs (saveFileEntry e.2.files f.1 f.2)) else e))
      [(n1, Fs.node [] acc)]
      = [(n1, Fs.node [] (acc ++ fl))]
  | [], acc, _, _ => by simp
  | f :: fl, acc, hlk, hnd => by
    rw [List.foldl_cons]
    have hnd2 : (fl.map (fun f => f.1)).Nodup := by
      rw [List.map_cons, List.nodup_cons] at hnd
      exact hnd.2
    have hhead : f.1 ∉ fl.map (fun f => f.1) := by
      rw [List.map_cons, List.nodup_cons] at hnd
      exact hnd.1
    have hstep : ∀ (x : String × String), x ∈ fl → x.1 ≠ f.1 := by
      intro x hx he
      exact hhead (he ▸ List.mem_map.mpr ⟨x, hx, rfl⟩)
    have hmap : ([(n1, Fs.node [] acc)].map (fun e =>
        if e.1 = tgt f
        then (e.1, Fs.node e.2.dirs (saveFileEntry e.2.files f.1 f.2)) else e))
        = [(n1, Fs.node [] (acc ++ [(f.1, f.2)]))] := by
      rw [List.map_cons, List.map_nil, htgt f, if_pos rfl]
      rw [show (Fs.node [] acc).dirs = [] from rfl, show (Fs.node [] acc).files = acc from rfl]
      rw [saveFileEntry_of_absent f.2 (hlk f (by simp))]
    rw [hmap]
    have := move_fold_one tgt htgt fl (acc ++ [(f.1, f.2)])
      (fun x hx => by
        rw [lookupName_append, hlk x (by simp [hx]), lookupName_cons,
          if_neg (by exact fun hc => hstep x hx hc.symm), lookupName_nil])
      hnd2
    rw [this]
    simp

theorem except_bind_ok_inv {α β : Type} {x : Except StoreErr α} {f : α → Except StoreErr β}
    {b : β} (h : (x >>= f) = .ok b) : ∃ a, x = .ok a ∧ f a = .ok b := by
  cases x with
  | ok a => exact ⟨a, rfl, h⟩
  | error e => simp [Bind.bind, Except.bind] at h

theorem rebalanceGo_zero (cfg : Config) (root : String) (cur : Fs) (nodesPath : List String) :
    rebalanceGo cfg root 0 cur nodesPath = .error .fuelExhausted := by
  rw [rebalanceGo]

theorem rebalanceGo_succ (cfg : Config) (root : String) (fuel : Nat) (cur : Fs)
    (nodesPath : List String) :
    rebalanceGo cfg root (fuel + 1) cur nodesPath = (do
      let cur1 ←
        if ((cur.files.filter (fun f => decide (f.1 ≠ cacheIndexName))).take
              (cfg.maxNodeFiles + 1)).length > cfg.maxNodeFiles then do
          let names ← divideNodeNames nodesPath
          (pure (Fs.node
            ((cur.files.filter (fun f => decide (f.1 ≠ cacheIndexName))).foldl (fun ds f =>
              ds.map (fun e =>
                if e.1 = (if buildFilePath (mergeDirectoryPaths ([root] ++ nodesPath)) f.1
                      ≤ createNewFilepath root nodesPath names.1 then names.1 else names.2)
                then (e.1, Fs.node e.2.dirs (saveFileEntry e.2.files f.1 f.2))
                else e))
              (if (lookupName (if (lookupName cur.dirs names.1).isSome then cur.dirs
                      else cur.dirs ++ [(names.1, Fs.empty)]) names.2).isSome
               then (if (lookupName cur.dirs names.1).isSome then cur.dirs
                     else cur.dirs ++ [(names.1, Fs.empty)])
               else (if (lookupName cur.dirs names.1).isSome then cur.dirs
                     else cur.dirs ++ [(names.1, Fs.empty)]) ++ [(names.2, Fs.empty)]))
            (cur.files.filter (fun f => decide (f.1 = cacheIndexName))))
            : Except StoreErr Fs)
        else
          pure cur
      let newDirs ← rebalanceDirs cfg root fuel cur1.dirs nodesPath
      pure (Fs.node newDirs cur1.files)) := by
  rw [rebalanceGo]

theorem rebalanceDirs_nil (cfg : Config) (root : String) (fuel : Nat)
    (nodesPath : List String) :
    rebalanceDirs cfg root fuel [] nodesPath = .ok [] := by
  rw [rebalanceDirs]

theorem rebalanceDirs_cons (cfg : Config) (root : String) (fuel : Nat) (e : String × Fs)
    (es : List (String × Fs)) (nodesPath : List String) :
    rebalanceDirs cfg root fuel (e :: es) nodesPath = (do
      let sub ← rebalanceGo cfg root fuel e.2 (nodesPath ++ [e.1])
      let rest ← rebalanceDirs cfg root fuel es nodesPath
      pure ((e.1, sub) :: rest)) := by
  rw [rebalanceDirs]

theorem getLastD_append_single (l : List String) (a : String) :
    ∀ d, (l ++ [a]).getLastD d = a := by
  induction l with
  | nil => intro d; rfl
  | cons x xs ih =>
    intro d
    rw [List.cons_append, List.getLastD_cons]
    exact ih x

theorem filter_names_nodup {files : List (String × String)} (p : String × String → Bool)
    (h : (files.map (fun f => f.1)).Nodup) :
    ((files.filter p).map (fun f => f.1)).Nodup :=
  List.Nodup.sublist (List.Sublist.map _ (List.filter_sublist files)) h

theorem filter_index_no_content (files : List (String × String)) :
    ((files.filter (fun f => decide (f.1 = cacheIndexName))).filter
      (fun f => decide (f.1 ≠ cacheIndexName))) = [] := by
  rw [List.filter_filter]
  apply List.filter_eq_nil_iff.mpr
  intro a _
  simp

/-- Rebuilding a node whose children were each rebalanced preserves the
invariant, permutes the content and bounds the leaves. -/
theorem rebalanceGo_reassemble {cfg : Config} {dirs newDirs : List (String × Fs)}
    {files : List (String × String)} {bound : String} {L : Nat}
    (hinv : invB (.node dirs files) bound L = true)
    (hrel : List.Forall₂ (fun e e' => e'.1 = e.1 ∧ invB e'.2 e.1 (L + 1) = true ∧
      (contentList e'.2).Perm (contentList e.2) ∧
      leavesBounded cfg.maxNodeFiles e'.2 = true) dirs newDirs)
    (hleafok : dirs = [] →
      (files.filter (fun f => decide (f.1 ≠ cacheIndexName))).length ≤ cfg.maxNodeFiles) :
    invB (.node newDirs files) bound L = true ∧
    (contentList (.node newDirs files)).Perm (contentList (.node dirs files)) ∧
    leavesBounded cfg.maxNodeFiles (.node newDirs files) = true := by
  have hbase : invBase files bound L = true := invB_base hinv
  rcases invB_dirs_cases hinv with rfl | ⟨t, rfl, hi, hfi⟩ |
    ⟨a, t1, t2, rfl, hab, hne, hi1, hi2, hdg, hfi⟩
  · have hnd : newDirs = [] := List.forall₂_nil_left_iff.mp hrel
    subst hnd
    exact ⟨invB_mk hbase (Or.inl rfl), List.Perm.refl _,
      leavesBounded_leaf.mpr (hleafok rfl)⟩
  · rcases List.forall₂_cons_left_iff.mp hrel with ⟨b, l₂, ⟨hb1, hb2, hb3, hb4⟩, hf2, rfl⟩
    have hl2 : l₂ = [] := List.forall₂_nil_left_iff.mp hf2
    subst hl2
    obtain ⟨bn, bt⟩ := b
    have hbn : bn = bound := hb1
    subst bn
    refine ⟨invB_mk hbase (Or.inr (Or.inl ⟨bt, rfl, hb2, hfi⟩)), ?_, ?_⟩
    · rw [contentList_node, contentList_node]
      simp only [List.flatMap_cons, List.flatMap_nil, List.append_nil]
      exact hb3.append_left _
    · apply leavesBounded_cons.mpr
      intro x hx
      have hx2 : x = (bound, bt) := by simpa using hx
      subst hx2
      exact hb4
  · rcases List.forall₂_cons_left_iff.mp hrel with ⟨b1, l₂, ⟨hb1, hb2, hb3, hb4⟩, hf2, rfl⟩
    rcases List.forall₂_cons_left_iff.mp hf2 with ⟨b2, l₃, ⟨hc1, hc2, hc3, hc4⟩, hf3, rfl⟩
    have hl3 : l₃ = [] := List.forall₂_nil_left_iff.mp hf3
    subst hl3
    obtain ⟨bn1, bt1⟩ := b1
    obtain ⟨bn2, bt2⟩ := b2
    have hbn1 : bn1 = a := hb1
    have hbn2 : bn2 = bound := hc1
    subst bn1
    subst bn2
    refine ⟨invB_mk hbase (Or.inr (Or.inr ⟨a, bt1, bt2, rfl, hab, hne, hb2, hc2,
      fun d hd => ?_, hfi⟩)), ?_, ?_⟩
    · apply hdg d
      have hperm : (digestNames bt2).Perm (digestNames t2) := hc3.map _
      exact hperm.mem_iff.mp hd
    · rw [contentList_node, contentList_node]
      simp only [List.flatMap_cons, List.flatMap_nil, List.append_nil]
      exact (hb3.append hc3).append_left _
    · apply leavesBounded_cons.mpr
      intro x hx
      rcases (by simpa using hx : x = (a, bt1) ∨ x = (bound, bt2)) with rfl | rfl
      · exact hb4
      · exact hc4

/-- Once the halved split width underflows to zero, a rebalance of an
overfull leaf loops creating the same child and can only run out of
fuel: it never returns successfully. -/
theorem rebalanceGo_stuck (cfg : Config) (root : String) :
    ∀ fuel : Nat, ∀ (files : List (String × String)) (nodesPath : List String)
      (bound : String) (v : Nat),
    ((files.filter (fun f => decide (f.1 ≠ cacheIndexName))).map (fun f => f.1)).Nodup →
    cfg.maxNodeFiles < (files.filter (fun f => decide (f.1 ≠ cacheIndexName))).length →
    2 ^ 159 >>> nodesPath.length = 0 →
    nodesPath ≠ [] →
    (∀ n ns, nodesPath = n :: ns → (n :: ns).getLastD "" = bound) →
    isBoundName bound = true →
    parseHexNat bound = some v →
    ∀ fs', rebalanceGo cfg root fuel (.node [] files) nodesPath ≠ .ok fs' := by
  intro fuel
  induction fuel with
  | zero =>
    intro files nodesPath bound v _ _ _ _ _ _ _ fs'
    rw [rebalanceGo_zero]
    simp
  | succ fuel ih =>
    intro files nodesPath bound v hnd hcount hW hne hlast hb hp fs' hok
    rw [rebalanceGo_succ] at hok
    rw [show (Fs.node [] files).files = files from rfl,
      show (Fs.node [] files).dirs = ([] : List (String × Fs)) from rfl] at hok
    have hR : ((files.filter (fun f => decide (f.1 ≠ cacheIndexName))).take
        (cfg.maxNodeFiles + 1)).length > cfg.maxNodeFiles :=
      (take_count_gt _ _).mpr hcount
    rw [if_pos hR] at hok
    obtain ⟨names, hdiv, h2⟩ := except_bind_ok_inv hok
    have hlen160 : 160 ≤ nodesPath.length := by
      rw [Nat.shiftRight_eq_div_pow] at hW
      by_contra hc
      push_neg at hc
      have hle : 2 ^ nodesPath.length ≤ 2 ^ 159 :=
        Nat.pow_le_pow_right (by norm_num) (by omega)
      have hpos : 0 < 2 ^ nodesPath.length := Nat.pos_pow_of_pos _ (by norm_num)
      have := Nat.div_eq_zero_iff hpos |>.mp hW
      omega
    have hlb : 2 ^ (160 - nodesPath.length) - 1 ≤ v := by
      have he : 160 - nodesPath.length = 0 := by omega
      rw [he]
      simp
    obtain ⟨hdivspec, hwf2, hp2⟩ := divideNodeNames_spec rfl
      (fun h => absurd h hne) hlast hb hp hlb
    rw [hW, Nat.sub_zero] at hdivspec hwf2 hp2
    have hlow : pyLower (pyHex40 ((v : Nat) : Int)) = bound :=
      boundName_eq_of_val hwf2 hb hp2 hp
    rw [hlow] at hdivspec
    rw [hdivspec] at hdiv
    injection hdiv with hnames
    subst hnames
    simp only [lookupName_nil, Option.isSome_none, Bool.false_eq_true, if_false,
      List.nil_append, lookupName_cons, if_pos rfl, Option.isSome_some, if_true] at h2
    rw [show Fs.empty = Fs.node [] [] from rfl] at h2
    rw [move_fold_one
      (fun f => if buildFilePath (mergeDirectoryPaths ([root] ++ nodesPath)) f.1
          ≤ createNewFilepath root nodesPath bound then bound else bound)
      (fun f => ite_self bound)
      (files.filter (fun f => decide (f.1 ≠ cacheIndexName))) []
      (fun f _ => rfl) hnd] at h2
    obtain ⟨cur1, hcur1, h3⟩ := except_bind_ok_inv h2
    have hcur1' : cur1 = Fs.node
        [(bound, Fs.node [] ([] ++ files.filter (fun f => decide (f.1 ≠ cacheIndexName))))]
        (files.filter (fun f => decide (f.1 = cacheIndexName))) := by
      injection hcur1 with h
      exact h.symm
    subst hcur1'
    simp only [Fs.dirs, Fs.files, List.nil_append] at h3
    obtain ⟨nd, hnd2, -⟩ := except_bind_ok_inv h3
    rw [rebalanceDirs_cons] at hnd2
    obtain ⟨sub, hsub, -⟩ := except_bind_ok_inv hnd2
    have hfix : (files.filter (fun f => decide (f.1 ≠ cacheIndexName))).filter
        (fun f => decide (f.1 ≠ cacheIndexName))
        = files.filter (fun f => decide (f.1 ≠ cacheIndexName)) :=
      List.filter_eq_self.mpr (fun a ha => (List.mem_filter.mp ha).2)
    refine ih (files.filter (fun f => decide (f.1 ≠ cacheIndexName)))
      (nodesPath ++ [bound]) bound v ?_ ?_ ?_ (by simp) ?_ hb hp sub ?_
    · rw [hfix]
      exact hnd
    · rw [hfix]
      exact hcount
    · rw [List.length_append, List.length_cons, List.length_nil,
        Nat.shiftRight_eq_div_pow]
      apply (Nat.div_eq_zero_iff (Nat.pos_pow_of_pos _ (by norm_num))).mpr
      calc 2 ^ 159 < 2 ^ nodesPath.length :=
            Nat.pow_lt_pow_right (by norm_num) (by omega)
        _ ≤ 2 ^ (nodesPath.length + (0 + 1)) := Nat.pow_le_pow_right (by norm_num) (by omega)
    · intro n ns hcons
      rw [← hcons]
      exact getLastD_append_single nodesPath bound ""
    · exact hsub


theorem contentList_leaf {files : List (String × String)}
    (h : ∀ a ∈ files, a.1 ≠ cacheIndexName) : contentList (.node [] files) = files := by
  rw [contentList_node]
  simp only [List.flatMap_nil, List.append_nil]
  exact List.filter_eq_self.mpr (fun a ha => by simpa using h a ha)

/-- What the move loop of a split leaves behind satisfies the
invariant at the parent and permutes the node's content. -/
theorem split_inv (currentPath newPath1 : String)
    {files c1f c2f : List (String × String)} {bound low : String} {L w : Nat}
    (hc1f : c1f = (files.filter (fun f => decide (f.1 ≠ cacheIndexName))).filter
        (fun f => decide ((if buildFilePath currentPath f.1 ≤ newPath1 then low else bound)
          = low)))
    (hc2f : c2f = (files.filter (fun f => decide (f.1 ≠ cacheIndexName))).filter
        (fun f => decide (¬ ((if buildFilePath currentPath f.1 ≤ newPath1 then low else bound)
          = low))))
    (hinv : invB (.node [] files) bound L = true)
    (hlowwf : isBoundName low = true) (hlowp : parseHexNat low = some w)
    (hwlb : 2 ^ (160 - (L + 1)) - 1 ≤ w)
    (hlow_le : low ≤ bound) (hlow_ne : low ≠ bound)
    (hmid : ∀ f : String × String, buildFilePath currentPath f.1 ≤ newPath1 ↔ f.1 ≤ low) :
    invB (.node [(low, .node [] c1f), (bound, .node [] c2f)]
      (files.filter (fun f => decide (f.1 = cacheIndexName)))) bound L = true ∧
    (contentList (.node [(low, .node [] c1f), (bound, .node [] c2f)]
      (files.filter (fun f => decide (f.1 = cacheIndexName))))).Perm
      (contentList (.node [] files)) := by
  obtain ⟨hbn, ⟨v, hp, hlb⟩, hndf, hfdig⟩ := invB_parts hinv
  have hPiff : ∀ f : String × String,
      ((if buildFilePath currentPath f.1 ≤ newPath1 then low else bound) = low) ↔
        f.1 ≤ low := by
    intro f
    by_cases hc : buildFilePath currentPath f.1 ≤ newPath1
    · rw [if_pos hc]
      simp [(hmid f).mp hc]
    · rw [if_neg hc]
      constructor
      · intro hb
        exact absurd hb.symm hlow_ne
      · intro hfl
        exact absurd ((hmid f).mpr hfl) hc
  have hmem1 : ∀ a ∈ c1f, a ∈ files ∧ a.1 ≠ cacheIndexName ∧ a.1 ≤ low := by
    intro a ha
    rw [hc1f] at ha
    obtain ⟨hfn, hpa⟩ := List.mem_filter.mp ha
    obtain ⟨hff, hne⟩ := List.mem_filter.mp hfn
    refine ⟨hff, of_decide_eq_true hne, ?_⟩
    exact (hPiff a).mp (of_decide_eq_true hpa)
  have hmem2 : ∀ a ∈ c2f, a ∈ files ∧ a.1 ≠ cacheIndexName ∧ ¬ (a.1 ≤ low) := by
    intro a ha
    rw [hc2f] at ha
    obtain ⟨hfn, hpa⟩ := List.mem_filter.mp ha
    obtain ⟨hff, hne⟩ := List.mem_filter.mp hfn
    refine ⟨hff, of_decide_eq_true hne, ?_⟩
    intro hle
    exact (of_decide_eq_true hpa : ¬ ((if buildFilePath currentPath a.1 ≤ newPath1
      then low else bound) = low)) ((hPiff a).mpr hle)
  have hdig : ∀ a, a ∈ files → a.1 ≠ cacheIndexName →
      isDigest a.1 = true ∧ a.1 ≤ bound := by
    intro a hf hne
    rcases hfdig a hf with h | h
    · exact absurd h hne
    · exact h
  have hc1inv : invB (.node [] c1f) low (L + 1) = true := by
    apply invB_mk _ (Or.inl rfl)
    apply invBase_iff.mpr
    refine ⟨hlowwf, ⟨w, hlowp, hwlb⟩, ?_, ?_⟩
    · rw [hc1f]
      exact filter_names_nodup _ (filter_names_nodup _ hndf)
    · intro f hf
      obtain ⟨hff, hne, hle⟩ := hmem1 f hf
      exact Or.inr ⟨(hdig f hff hne).1, hle⟩
  have hc2inv : invB (.node [] c2f) bound (L + 1) = true := by
    apply invB_mk _ (Or.inl rfl)
    apply invBase_iff.mpr
    refine ⟨hbn, ⟨v, hp, le_trans (bound_floor_anti L) hlb⟩, ?_, ?_⟩
    · rw [hc2f]
      exact filter_names_nodup _ (filter_names_nodup _ hndf)
    · intro f hf
      obtain ⟨hff, hne, -⟩ := hmem2 f hf
      exact Or.inr ⟨(hdig f hff hne).1, (hdig f hff hne).2⟩
  have hpart : ∀ d ∈ digestNames (.node [] c2f), ¬ (d ≤ low) := by
    intro d hd
    rw [digestNames_leaf] at hd
    obtain ⟨f, hf, hfd⟩ := List.mem_map.mp hd
    obtain ⟨hff, -, hgt⟩ := hmem2 f (List.mem_filter.mp hf).1
    rw [← hfd]
    exact hgt
  have hbase : invBase (files.filter (fun f => decide (f.1 = cacheIndexName))) bound L
      = true := by
    apply invBase_iff.mpr
    refine ⟨hbn, ⟨v, hp, hlb⟩, filter_names_nodup _ hndf, ?_⟩
    intro f hf
    exact Or.inl (by simpa using (List.mem_filter.mp hf).2)
  refine ⟨invB_mk hbase (Or.inr (Or.inr ⟨low, .node [] c1f, .node [] c2f, rfl, hlow_le,
    hlow_ne, hc1inv, hc2inv, hpart, fun f hf => by simpa using (List.mem_filter.mp hf).2⟩)),
    ?_⟩
  have hCL1 : contentList (Fs.node [] c1f) = c1f :=
    contentList_leaf (fun a ha => (hmem1 a ha).2.1)
  have hCL2 : contentList (Fs.node [] c2f) = c2f :=
    contentList_leaf (fun a ha => (hmem2 a ha).2.1)
  rw [contentList_node, contentList_node]
  simp only [List.flatMap_cons, List.flatMap_nil, List.append_nil, hCL1, hCL2,
    filter_index_no_content, List.nil_append]
  rw [hc1f, hc2f]
  have hfc : (files.filter (fun f => decide (f.1 ≠ cacheIndexName))).filter
      (fun f => decide (¬ ((if buildFilePath currentPath f.1 ≤ newPath1 then low else bound)
        = low)))
      = (files.filter (fun f => decide (f.1 ≠ cacheIndexName))).filter
      (fun f => !(decide ((if buildFilePath currentPath f.1 ≤ newPath1 then low else bound)
        = low))) :=
    List.filter_congr (fun a _ => by rw [decide_not])
  rw [hfc]
  exact List.filter_append_perm _ _

/-- Correctness property of one rebalance pass at a given recursion
budget: from an invariant-satisfying subtree it returns an
invariant-satisfying subtree with permuted content and all leaves
within the per-node file limit. -/
def GoFact (cfg : Config) (root : String) (fuel : Nat) : Prop :=
  ∀ (cur : Fs) (nodesPath : List String) (bound : String) (fs' : Fs),
    invB cur bound nodesPath.length = true →
    (nodesPath = [] → bound = topBound) →
    (∀ n ns, nodesPath = n :: ns → (n :: ns).getLastD "" = bound) →
    rebalanceGo cfg root fuel cur nodesPath = .ok fs' →
    invB fs' bound nodesPath.length = true ∧
    (contentList fs').Perm (contentList cur) ∧
    leavesBounded cfg.maxNodeFiles fs' = true

theorem rebalanceDirs_fact {cfg : Config} {root : String} {fuel : Nat}
    (hgo : GoFact cfg root fuel) :
    ∀ (l : List (String × Fs)) (nodesPath : List String) (l' : List (String × Fs)),
    (∀ e ∈ l, invB e.2 e.1 (nodesPath.length + 1) = true) →
    rebalanceDirs cfg root fuel l nodesPath = .ok l' →
    List.Forall₂ (fun e e' => e'.1 = e.1 ∧ invB e'.2 e.1 (nodesPath.length + 1) = true ∧
      (contentList e'.2).Perm (contentList e.2) ∧
      leavesBounded cfg.maxNodeFiles e'.2 = true) l l'
  | [], nodesPath, l', _, h => by
    rw [rebalanceDirs_nil] at h
    injection h with h2
    rw [← h2]
    exact List.Forall₂.nil
  | e :: es, nodesPath, l', hinv, h => by
    rw [rebalanceDirs_cons] at h
    obtain ⟨sub, hsub, h2⟩ := except_bind_ok_inv h
    obtain ⟨rest, hrest, h3⟩ := except_bind_ok_inv h2
    have hl' : (e.1, sub) :: rest = l' := by
      injection h3
    rw [← hl']
    have hlen : (nodesPath ++ [e.1]).length = nodesPath.length + 1 := by simp
    have hmain := hgo e.2 (nodesPath ++ [e.1]) e.1 sub
      (by rw [hlen]; exact hinv e (by simp))
      (fun hc => absurd hc (by simp))
      (fun n ns hcons => by rw [← hcons]; exact getLastD_append_single nodesPath e.1 "")
      hsub
    refine List.Forall₂.cons ⟨rfl, ?_, hmain.2.1, hmain.2.2⟩
      (rebalanceDirs_fact hgo es nodesPath rest (fun x hx => hinv x (by simp [hx])) hrest)
    rw [← hlen]
    exact hmain.1

theorem rebalanceGo_fact (cfg : Config) (root : String) :
    ∀ fuel, GoFact cfg root fuel := by
  intro fuel
  induction fuel with
  | zero =>
    intro cur nodesPath bound fs' _ _ _ hok
    rw [rebalanceGo_zero] at hok
    simp at hok
  | succ fuel ih =>
    intro cur nodesPath bound fs' hinv hroot hlast hok
    have hok0 := hok
    cases cur with
    | node dirs files =>
    rw [rebalanceGo_succ] at hok
    rw [show (Fs.node dirs files).files = files from rfl,
      show (Fs.node dirs files).dirs = dirs from rfl] at hok
    by_cases hR : ((files.filter (fun f => decide (f.1 ≠ cacheIndexName))).take
        (cfg.maxNodeFiles + 1)).length > cfg.maxNodeFiles
    · rw [if_pos hR] at hok
      have hcount : cfg.maxNodeFiles
          < (files.filter (fun f => decide (f.1 ≠ cacheIndexName))).length :=
        (take_count_gt _ _).mp hR
      have hdirs_nil : dirs = [] := by
        rcases invB_dirs_cases hinv with h | ⟨t, he, -, hfi⟩ |
          ⟨a, t1, t2, he, -, -, -, -, -, hfi⟩
        · exact h
        · exfalso
          have hemp : files.filter (fun f => decide (f.1 ≠ cacheIndexName)) = [] :=
            List.filter_eq_nil_iff.mpr (fun a ha => by simp [hfi a ha])
          rw [hemp] at hcount
          simp at hcount
        · exfalso
          have hemp : files.filter (fun f => decide (f.1 ≠ cacheIndexName)) = [] :=
            List.filter_eq_nil_iff.mpr (fun a ha => by simp [hfi a ha])
          rw [hemp] at hcount
          simp at hcount
      subst hdirs_nil
      obtain ⟨hbn, ⟨v, hp, hlb⟩, hndf, hfdig⟩ := invB_parts hinv
      by_cases hW : 2 ^ 159 >>> nodesPath.length = 0
      · exfalso
        have hnp_ne : nodesPath ≠ [] := by
          intro hc
          subst hc
          rw [List.length_nil, Nat.shiftRight_zero] at hW
          have hposW : 0 < 2 ^ 159 := Nat.pos_pow_of_pos _ (by norm_num)
          omega
        exact rebalanceGo_stuck cfg root (fuel + 1) files nodesPath bound v
          (filter_names_nodup _ hndf) hcount hW hnp_ne hlast hbn hp fs' hok0
      · have hWpos : 0 < 2 ^ 159 >>> nodesPath.length := Nat.pos_of_ne_zero hW
        have hWle : 2 ^ 159 >>> nodesPath.length ≤ v :=
          le_trans (diff_le_bound_floor _) hlb
        obtain ⟨hdivspec, hlowwf, hlowp⟩ := divideNodeNames_spec rfl hroot hlast hbn hp hlb
        have hlow_ne : pyLower (pyHex40
            ((v - (2 ^ 159 >>> nodesPath.length) : Nat) : Int)) ≠ bound := by
          intro he
          rw [he, hp] at hlowp
          injection hlowp with hlowp2
          omega
        have hlow_le : pyLower (pyHex40
            ((v - (2 ^ 159 >>> nodesPath.length) : Nat) : Int)) ≤ bound :=
          (boundName_le_iff hlowwf hbn hlowp hp).mpr (by omega)
        obtain ⟨names, hdiv, h2⟩ := except_bind_ok_inv hok
        rw [hdivspec] at hdiv
        injection hdiv with hnames
        subst hnames
        simp only [lookupName_nil, Option.isSome_none, Bool.false_eq_true, if_false,
          List.nil_append, lookupName_cons, if_neg hlow_ne, Option.isSome_some,
          List.singleton_append, List.cons_append, List.nil_append] at h2
        rw [show Fs.empty = Fs.node [] [] from rfl] at h2
        rw [move_fold_two hlow_ne
          (fun f => if buildFilePath (mergeDirectoryPaths (root :: nodesPath)) f.1
              ≤ createNewFilepath root nodesPath (pyLower (pyHex40
                ((v - (2 ^ 159 >>> nodesPath.length) : Nat) : Int)))
            then pyLower (pyHex40 ((v - (2 ^ 159 >>> nodesPath.length) : Nat) : Int))
            else bound)
          (fun f => by
            by_cases hc : buildFilePath (mergeDirectoryPaths (root :: nodesPath)) f.1
                ≤ createNewFilepath root nodesPath (pyLower (pyHex40
                  ((v - (2 ^ 159 >>> nodesPath.length) : Nat) : Int)))
            · exact Or.inl (if_pos hc)
            · exact Or.inr (if_neg hc))
          (files.filter (fun f => decide (f.1 ≠ cacheIndexName))) [] []
          (fun f _ => ⟨rfl, rfl⟩)
          (filter_names_nodup _ hndf)] at h2
        simp only [List.nil_append] at h2
        obtain ⟨cur1, hcur1, h3⟩ := except_bind_ok_inv h2
        injection hcur1 with hcur1e
        rw [← hcur1e] at h3
        simp only [Fs.dirs, Fs.files] at h3
        obtain ⟨nd, hnd2, h4⟩ := except_bind_ok_inv h3
        injection h4 with h4e
        rw [← h4e]
        obtain ⟨hinv1, hperm1⟩ := split_inv (mergeDirectoryPaths (root :: nodesPath))
          (createNewFilepath root nodesPath (pyLower (pyHex40
            ((v - (2 ^ 159 >>> nodesPath.length) : Nat) : Int))))
          rfl rfl hinv hlowwf hlowp (bound_floor_sub _ hlb) hlow_le hlow_ne
          (fun f => by
            rw [createNewFilepath_eq,
              show [root] ++ nodesPath = root :: nodesPath from rfl]
            exact buildFilePath_le_iff)
        have hrel := rebalanceDirs_fact ih _ nodesPath nd (invB_children hinv1) hnd2
        obtain ⟨hinv2, hperm2, hleaves2⟩ := rebalanceGo_reassemble hinv1 hrel
          (fun hcontra => by simp at hcontra)
        exact ⟨hinv2, hperm2.trans hperm1, hleaves2⟩
    · rw [if_neg hR] at hok
      obtain ⟨cur1, hcur1, h3⟩ := except_bind_ok_inv hok
      injection hcur1 with hcur1e
      rw [← hcur1e] at h3
      simp only [Fs.dirs, Fs.files] at h3
      obtain ⟨nd, hnd2, h4⟩ := except_bind_ok_inv h3
      injection h4 with h4e
      rw [← h4e]
      have hrel := rebalanceDirs_fact ih _ nodesPath nd (invB_children hinv) hnd2
      exact rebalanceGo_reassemble hinv hrel
        (fun _ => by
          rw [← Nat.not_lt]
          intro hcontra
          exact hR ((take_count_gt _ _).mpr hcontra))

theorem except_map_ok_inv {α β : Type} {x : Except StoreErr α} {f : α → β} {b : β}
    (h : x.map f = .ok b) : ∃ a, x = .ok a ∧ f a = b := by
  cases x with
  | ok a =>
    refine ⟨a, rfl, ?_⟩
    have h2 : (Except.ok (f a) : Except StoreErr β) = .ok b := h
    injection h2
  | error e => simp [Except.map] at h

theorem saveFileAt_nil (dirs : List (String × Fs)) (files : List (String × String))
    (n v : String) :
    saveFileAt (.node dirs files) [] n v = .node dirs (saveFileEntry files n v) := rfl

theorem saveFileAt_cons (dirs : List (String × Fs)) (files : List (String × String))
    (d0 : String) (rest : List String) (n v : String) :
    saveFileAt (.node dirs files) (d0 :: rest) n v
      = .node (dirs.map (fun e => if e.1 = d0 then (e.1, saveFileAt e.2 rest n v) else e))
        files := rfl

/-- Writing the content file named by a digest at the leaf `find_node`
returns preserves the invariant; the new pair is present, pairs with
other names survive, and nothing else appears. -/
theorem saveFileAt_resolve :
    ∀ fs : Fs, ∀ (bound : String) (level : Nat) (d v : String) (p : List String),
      invB fs bound level = true → isDigest d = true → d ≤ bound →
      findNode d fs = .ok p →
      invB (saveFileAt fs p d v) bound level = true ∧
      (d, v) ∈ contentList (saveFileAt fs p d v) ∧
      (∀ x ∈ contentList fs, x.1 ≠ d → x ∈ contentList (saveFileAt fs p d v)) ∧
      (∀ x ∈ contentList (saveFileAt fs p d v), x = (d, v) ∨ x ∈ contentList fs) := by
  apply Fs.ind
  intro dirs files ih bound level d v p hinv hd hdb hfind
  obtain ⟨hbn, ⟨bv, hbp, hblb⟩, hndf, hfdig⟩ := invB_parts hinv
  rcases invB_dirs_cases hinv with rfl | ⟨t, rfl, hi, hfi⟩ |
    ⟨a, t1, t2, rfl, hab, hane, hi1, hi2, hdg2, hfi⟩
  · rw [findNode_ok_leaf] at hfind
    injection hfind with hp
    subst hp
    rw [saveFileAt_nil]
    refine ⟨?_, ?_, ?_, ?_⟩
    · apply invB_mk _ (Or.inl rfl)
      apply invBase_iff.mpr
      refine ⟨hbn, ⟨bv, hbp, hblb⟩, saveFileEntry_nodup hndf, ?_⟩
      intro f hf
      rcases mem_saveFileEntry.mp hf with he | ⟨hm, -⟩
      · rw [he]
        exact Or.inr ⟨hd, hdb⟩
      · exact hfdig f hm
    · exact mem_contentList.mpr (Or.inl ⟨mem_saveFileEntry.mpr (Or.inl rfl),
        isDigest_ne_index hd⟩)
    · intro x hx hxd
      rcases mem_contentList.mp hx with ⟨hm, hne⟩ | ⟨e, he, -⟩
      · exact mem_contentList.mpr (Or.inl ⟨mem_saveFileEntry.mpr (Or.inr ⟨hm, hxd⟩), hne⟩)
      · simp at he
    · intro x hx
      rcases mem_contentList.mp hx with ⟨hm, hne⟩ | ⟨e, he, -⟩
      · rcases mem_saveFileEntry.mp hm with he2 | ⟨hm2, -⟩
        · exact Or.inl he2
        · exact Or.inr (mem_contentList.mpr (Or.inl ⟨hm2, hne⟩))
      · simp at he
  · have hfind2 : List.find? (fun q => decide (d ≤ q.1)) [(bound, t)] = some (bound, t) :=
      List.find?_cons_of_pos _ (decide_eq_true hdb)
    rw [findNode_step_some files hfind2] at hfind
    obtain ⟨p', hp', hpe⟩ := except_map_ok_inv hfind
    subst hpe
    obtain ⟨ih1, ih2, ih3, ih4⟩ := ih (bound, t) (by simp) bound (level + 1) d v p'
      hi hd hdb hp'
    rw [saveFileAt_cons]
    simp only [List.map_cons, List.map_nil, if_pos rfl]
    refine ⟨?_, ?_, ?_, ?_⟩
    · exact invB_mk (invB_base hinv)
        (Or.inr (Or.inl ⟨saveFileAt t p' d v, rfl, ih1, hfi⟩))
    · exact mem_contentList.mpr (Or.inr ⟨(bound, saveFileAt t p' d v), by simp, ih2⟩)
    · intro x hx hxd
      rcases mem_contentList.mp hx with ⟨hm, hne⟩ | ⟨e, he, hsub⟩
      · exact mem_contentList.mpr (Or.inl ⟨hm, hne⟩)
      · have he2 : e = (bound, t) := by simpa using he
        subst he2
        exact mem_contentList.mpr (Or.inr ⟨(bound, saveFileAt t p' d v), by simp,
          ih3 x hsub hxd⟩)
    · intro x hx
      rcases mem_contentList.mp hx with ⟨hm, hne⟩ | ⟨e, he, hsub⟩
      · exact Or.inr (mem_contentList.mpr (Or.inl ⟨hm, hne⟩))
      · have he2 : e = (bound, saveFileAt t p' d v) := by simpa using he
        subst he2
        rcases ih4 x hsub with h | h
        · exact Or.inl h
        · exact Or.inr (mem_contentList.mpr (Or.inr ⟨(bound, t), by simp, h⟩))
  · have hba : ¬ (bound = a) := fun h => hane h.symm
    by_cases hda : d ≤ a
    · have hfind2 : List.find? (fun q => decide (d ≤ q.1)) [(a, t1), (bound, t2)]
          = some (a, t1) :=
        List.find?_cons_of_pos _ (decide_eq_true hda)
      rw [findNode_step_some files hfind2] at hfind
      obtain ⟨p', hp', hpe⟩ := except_map_ok_inv hfind
      subst hpe
      obtain ⟨ih1, ih2, ih3, ih4⟩ := ih (a, t1) (by simp) a (level + 1) d v p'
        hi1 hd hda hp'
      rw [saveFileAt_cons]
      simp only [List.map_cons, List.map_nil, if_pos rfl, if_neg hba]
      refine ⟨?_, ?_, ?_, ?_⟩
      · exact invB_mk (invB_base hinv)
          (Or.inr (Or.inr ⟨a, saveFileAt t1 p' d v, t2, rfl, hab, hane, ih1, hi2,
            hdg2, hfi⟩))
      · exact mem_contentList.mpr (Or.inr ⟨(a, saveFileAt t1 p' d v), by simp, ih2⟩)
      · intro x hx hxd
        rcases mem_contentList.mp hx with ⟨hm, hne⟩ | ⟨e, he, hsub⟩
        · exact mem_contentList.mpr (Or.inl ⟨hm, hne⟩)
        · rcases (by simpa using he : e = (a, t1) ∨ e = (bound, t2)) with he2 | he2
          · subst he2
            exact mem_contentList.mpr (Or.inr ⟨(a, saveFileAt t1 p' d v), by simp,
              ih3 x hsub hxd⟩)
          · subst he2
            exact mem_contentList.mpr (Or.inr ⟨(bound, t2), by simp, hsub⟩)
      · intro x hx
        rcases mem_contentList.mp hx with ⟨hm, hne⟩ | ⟨e, he, hsub⟩
        · exact Or.inr (mem_contentList.mpr (Or.inl ⟨hm, hne⟩))
        · rcases (by simpa using he : e = (a, saveFileAt t1 p' d v) ∨ e = (bound, t2))
            with he2 | he2
          · subst he2
            rcases ih4 x hsub with h | h
            · exact Or.inl h
            · exact Or.inr (mem_contentList.mpr (Or.inr ⟨(a, t1), by simp, h⟩))
          · subst he2
            exact Or.inr (mem_contentList.mpr (Or.inr ⟨(bound, t2), by simp, hsub⟩))
    · have hstep : List.find? (fun q => decide (d ≤ q.1)) [(a, t1), (bound, t2)]
          = some (bound, t2) := by
        rw [List.find?_cons_of_neg _ (by simpa using hda)]
        exact List.find?_cons_of_pos _ (decide_eq_true hdb)
      rw [findNode_step_some files hstep] at hfind
      obtain ⟨p', hp', hpe⟩ := except_map_ok_inv hfind
      subst hpe
      obtain ⟨ih1, ih2, ih3, ih4⟩ := ih (bound, t2) (by simp) bound (level + 1) d v p'
        hi2 hd hdb hp'
      rw [saveFileAt_cons]
      simp only [List.map_cons, List.map_nil, if_pos rfl, if_neg hba]
      have hba2 : ¬ ((a : String) = bound) := hane
      simp only [if_neg hba2]
      refine ⟨?_, ?_, ?_, ?_⟩
      · refine invB_mk (invB_base hinv) (Or.inr (Or.inr ⟨a, t1, saveFileAt t2 p' d v,
          rfl, hab, hane, hi1, ih1, ?_, hfi⟩))
        intro d' hd'
        obtain ⟨c, hc⟩ := mem_digestNames.mp hd'
        rcases ih4 (d', c) hc with he | he
        · have : d' = d := congrArg Prod.fst he
          rw [this]
          exact hda
        · exact hdg2 d' (mem_digestNames.mpr ⟨c, he⟩)
      · exact mem_contentList.mpr (Or.inr ⟨(bound, saveFileAt t2 p' d v), by simp, ih2⟩)
      · intro x hx hxd
        rcases mem_contentList.mp hx with ⟨hm, hne⟩ | ⟨e, he, hsub⟩
        · exact mem_contentList.mpr (Or.inl ⟨hm, hne⟩)
        · rcases (by simpa using he : e = (a, t1) ∨ e = (bound, t2)) with he2 | he2
          · subst he2
            exact mem_contentList.mpr (Or.inr ⟨(a, t1), by simp, hsub⟩)
          · subst he2
            exact mem_contentList.mpr (Or.inr ⟨(bound, saveFileAt t2 p' d v), by simp,
              ih3 x hsub hxd⟩)
      · intro x hx
        rcases mem_contentList.mp hx with ⟨hm, hne⟩ | ⟨e, he, hsub⟩
        · exact Or.inr (mem_contentList.mpr (Or.inl ⟨hm, hne⟩))
        · rcases (by simpa using he : e = (a, t1) ∨ e = (bound, saveFileAt t2 p' d v))
            with he2 | he2
          · subst he2
            exact Or.inr (mem_contentList.mpr (Or.inr ⟨(a, t1), by simp, hsub⟩))
          · subst he2
            rcases ih4 x hsub with h | h
            · exact Or.inl h
            · exact Or.inr (mem_contentList.mpr (Or.inr ⟨(bound, t2), by simp, h⟩))

theorem filter_saveIndex (files : List (String × String)) (c : String) :
    (saveFileEntry files cacheIndexName c).filter (fun f => decide (f.1 ≠ cacheIndexName))
      = files.filter (fun f => decide (f.1 ≠ cacheIndexName)) := by
  rw [saveFileEntry]
  by_cases h : (lookupName files cacheIndexName).isSome
  · rw [if_pos h]
    clear h
    induction files with
    | nil => rfl
    | cons f fs ih =>
      rw [List.map_cons]
      by_cases hf : f.1 = cacheIndexName
      · rw [if_pos hf, List.filter_cons_of_neg (by simp),
          List.filter_cons_of_neg (by simp [hf])]
        exact ih
      · rw [if_neg hf, List.filter_cons_of_pos (by simp [hf]),
          List.filter_cons_of_pos (by simp [hf])]
        rw [ih]
  · rw [if_neg h, List.filter_append]
    simp

/-- Appending a line to the root index keeps the invariant and leaves
the content files untouched. -/
theorem appendIndexLine_invB {fs : Fs} {bound : String} {level : Nat} (line : String)
    (h : invB fs bound level = true) :
    invB (appendIndexLine fs line) bound level = true ∧
    contentList (appendIndexLine fs line) = contentList fs := by
  cases fs with
  | node dirs files =>
  have he : appendIndexLine (Fs.node dirs files) line
      = Fs.node dirs (saveFileEntry files cacheIndexName
          (((indexContent (Fs.node dirs files)).getD "") ++ line)) := rfl
  rw [he]
  obtain ⟨hbn, ⟨bv, hbp, hblb⟩, hndf, hfdig⟩ := invB_parts h
  have hall : ∀ f ∈ saveFileEntry files cacheIndexName
      (((indexContent (Fs.node dirs files)).getD "") ++ line),
      f.1 = cacheIndexName ∨ (isDigest f.1 = true ∧ f.1 ≤ bound) := by
    intro f hf
    rcases mem_saveFileEntry.mp hf with he2 | ⟨hm, -⟩
    · rw [he2]
      exact Or.inl rfl
    · exact hfdig f hm
  have hallidx : (∀ f ∈ files, f.1 = cacheIndexName) →
      ∀ f ∈ saveFileEntry files cacheIndexName
        (((indexContent (Fs.node dirs files)).getD "") ++ line),
      f.1 = cacheIndexName := by
    intro hfi f hf
    rcases mem_saveFileEntry.mp hf with he2 | ⟨hm, -⟩
    · rw [he2]
    · exact hfi f hm
  constructor
  · apply invB_mk
    · apply invBase_iff.mpr
      exact ⟨hbn, ⟨bv, hbp, hblb⟩, saveFileEntry_nodup hndf, hall⟩
    · rcases invB_dirs_cases h with rfl | ⟨t, rfl, hi, hfi⟩ |
        ⟨a, t1, t2, rfl, hab, hane, hi1, hi2, hdg2, hfi⟩
      · exact Or.inl rfl
      · exact Or.inr (Or.inl ⟨t, rfl, hi, hallidx hfi⟩)
      · exact Or.inr (Or.inr ⟨a, t1, t2, rfl, hab, hane, hi1, hi2, hdg2, hallidx hfi⟩)
  · rw [contentList_node, contentList_node, filter_saveIndex]

/-- `_add_to_cache` on an invariant-satisfying store: the invariant is
preserved, the key's digest now maps to the value, other digests keep
their files, and no foreign pair appears. -/
theorem addToCacheS_ok {cfg : Config} {dg : String → String} {fuel today : Nat}
    {root : String} {fs fs' : Fs} {key value : String}
    (hinv : rootInv fs = true) (hd : isDigest (dg key) = true)
    (hok : addToCacheS cfg dg fuel today root fs key value = .ok fs') :
    rootInv fs' = true ∧
    (dg key, value) ∈ contentList fs' ∧
    (∀ x ∈ contentList fs, x.1 ≠ dg key → x ∈ contentList fs') ∧
    (∀ x ∈ contentList fs', x = (dg key, value) ∨ x ∈ contentList fs) := by
  obtain ⟨p, hp, h2⟩ := except_bind_ok_inv hok
  obtain ⟨hs1, hs2, hs3, hs4⟩ := saveFileAt_resolve fs topBound 0 (dg key) value p
    hinv hd (isDigest_le_topBound hd) hp
  obtain ⟨ha1, ha2⟩ := appendIndexLine_invB
    (dateStr today ++ " " ++ dg key ++ ": \"" ++ key ++ "\"\n") hs1
  by_cases hreb : fileSize ((indexContent (appendIndexLine (saveFileAt fs p (dg key) value)
      (dateStr today ++ " " ++ dg key ++ ": \"" ++ key ++ "\"\n"))).getD "")
      % cfg.rebalancingLimit = 0
  · rw [if_pos hreb] at h2
    obtain ⟨hr1, hr2, -⟩ := rebalanceGo_fact cfg root fuel
      (appendIndexLine (saveFileAt fs p (dg key) value)
        (dateStr today ++ " " ++ dg key ++ ": \"" ++ key ++ "\"\n"))
      [] topBound fs' ha1 (fun _ => rfl) (fun n ns hc => nomatch hc) h2
    refine ⟨hr1, ?_, ?_, ?_⟩
    · rw [hr2.mem_iff, ha2]
      exact hs2
    · intro x hx hxd
      rw [hr2.mem_iff, ha2]
      exact hs3 x hx hxd
    · intro x hx
      rw [hr2.mem_iff, ha2] at hx
      exact hs4 x hx
  · rw [if_neg hreb] at h2
    have hfs' : appendIndexLine (saveFileAt fs p (dg key) value)
        (dateStr today ++ " " ++ dg key ++ ": \"" ++ key ++ "\"\n") = fs' := by
      injection h2
    rw [← hfs']
    refine ⟨ha1, ?_, ?_, ?_⟩
    · rw [ha2]
      exact hs2
    · intro x hx hxd
      rw [ha2]
      exact hs3 x hx hxd
    · intro x hx
      rw [ha2] at hx
      exact hs4 x hx

theorem except_bind_ok_eq {α β : Type} (a : α) (f : α → Except StoreErr β) :
    ((Except.ok a : Except StoreErr α) >>= f) = f a := rfl

/-- A sequence of adds with pairwise distinct digests keeps the
invariant; every added pair is present afterwards and foreign pairs
survive. -/
theorem addManyS_ok {cfg : Config} {dg : String → String} {fuel today : Nat}
    {root : String} :
    ∀ (pairs : List (String × String)) (fs fs' : Fs),
    rootInv fs = true →
    (∀ p ∈ pairs, isDigest (dg p.1) = true) →
    ((pairs.map (fun p => dg p.1)).Nodup) →
    addManyS cfg dg fuel today root fs pairs = .ok fs' →
    rootInv fs' = true ∧
    (∀ p ∈ pairs, (dg p.1, p.2) ∈ contentList fs') ∧
    (∀ x ∈ contentList fs, (∀ p ∈ pairs, x.1 ≠ dg p.1) → x ∈ contentList fs')
  | [], fs, fs', hinv, _, _, h => by
    have he : fs = fs' := by injection h
    subst he
    exact ⟨hinv, by simp, fun x hx _ => hx⟩
  | (k, v) :: rest, fs, fs', hinv, hdg, hnd, h => by
    obtain ⟨fs1, h1, h2⟩ := except_bind_ok_inv
      (show (addToCacheS cfg dg fuel today root fs k v >>= fun fs1 =>
        addManyS cfg dg fuel today root fs1 rest) = .ok fs' from h)
    obtain ⟨ha1, ha2, ha3, ha4⟩ := addToCacheS_ok hinv (hdg (k, v) (by simp)) h1
    rw [List.map_cons, List.nodup_cons] at hnd
    obtain ⟨hih1, hih2, hih3⟩ := addManyS_ok rest fs1 fs' ha1
      (fun p hp => hdg p (by simp [hp])) hnd.2 h2
    refine ⟨hih1, ?_, ?_⟩
    · intro p hp
      rcases List.mem_cons.mp hp with rfl | hp2
      · apply hih3 _ ha2
        intro q hq he
        exact hnd.1 (List.mem_map.mpr ⟨q, hq, he.symm⟩)
      · exact hih2 p hp2
    · intro x hx hne
      exact hih3 x (ha3 x hx (hne (k, v) (by simp))) (fun p hp => hne p (by simp [hp]))

theorem urlFindNode_leaf (d : String) (files : List (String × String)) :
    urlFindNode d (.node [] files) = .error .inconsistentTree := by
  rw [urlFindNode]
  rfl

/-- When every line has a second token, the per-key index filtering
succeeds and keeps exactly the lines whose second token differs from
`digest ++ ":"`. -/
theorem filterIndexLines_spec (digest : String) :
    ∀ lines : List String,
    (∀ l ∈ lines, ∃ t, pySecondToken l = .ok t) →
    filterIndexLines digest lines
      = .ok (lines.filter (fun l => decide (¬ pySecondToken l = .ok (digest ++ ":"))))
  | [], _ => rfl
  | l :: ls, h => by
    obtain ⟨t, ht⟩ := h l (by simp)
    have hrest := filterIndexLines_spec digest ls (fun x hx => h x (by simp [hx]))
    show (pySecondToken l >>= fun tok => (filterIndexLines digest ls >>= fun rest =>
      if tok = digest ++ ":" then pure rest else pure (l :: rest))) = _
    rw [ht]
    show (filterIndexLines digest ls >>= fun rest =>
      if t = digest ++ ":" then pure rest else pure (l :: rest)) = _
    rw [hrest]
    show (if t = digest ++ ":"
      then (pure (ls.filter (fun l => decide (¬ pySecondToken l = .ok (digest ++ ":"))))
        : Except StoreErr (List String))
      else pure (l :: ls.filter (fun l => decide (¬ pySecondToken l = .ok (digest ++ ":")))))
      = _
    by_cases he : t = digest ++ ":"
    · rw [if_pos he, List.filter_cons_of_neg (by simp [ht, he])]
      rfl
    · rw [if_neg he, List.filter_cons_of_pos (by simp [ht, he])]
      rfl

theorem removeStep_eq {dg : String → String} (st : Fs × List String) {key : String}
    {p : List String} {lines' : List String}
    (hfind : findNode (dg key) st.1 = .ok p)
    (hfil : filterIndexLines (dg key) st.2 = .ok lines') :
    removeStep dg st key = .ok (removeFileAt st.1 p (dg key), lines') := by
  unfold removeStep
  show (findNode (dg key) st.1 >>= fun p =>
    (filterIndexLines (dg key) st.2 >>= fun lines1 =>
      pure (removeFileAt st.1 p (dg key), lines1))) = _
  rw [hfind]
  show (filterIndexLines (dg key) st.2 >>= fun lines1 =>
    pure (removeFileAt st.1 p (dg key), lines1)) = _
  rw [hfil]
  rfl

theorem gatherFold_blank (e : Nat) :
    ∀ (lines : List String) (acc : List String),
    (∀ l ∈ lines, (pyStrip l).length = 0) →
    lines.foldlM (gatherStep e) acc = .ok acc
  | [], acc, _ => rfl
  | l :: ls, acc, h => by
    rw [List.foldlM_cons]
    have hstep : gatherStep e acc l = .ok acc := by
      unfold gatherStep
      rw [if_pos (h l (by simp))]
      rfl
    rw [hstep]
    show ls.foldlM (gatherStep e) acc = .ok acc
    exact gatherFold_blank e ls acc (fun x hx => h x (by simp [hx]))

/-- Blank lines contribute nothing wherever they sit in the index:
the scan over all lines equals the scan over the non-blank lines. -/
theorem gatherFold_skips_blank (e : Nat) :
    ∀ (lines : List String) (acc : List String),
    lines.foldlM (gatherStep e) acc
      = (lines.filter (fun l => decide ((pyStrip l).length ≠ 0))).foldlM (gatherStep e) acc
  | [], _ => rfl
  | l :: ls, acc => by
    by_cases hb : (pyStrip l).length = 0
    · rw [List.filter_cons_of_neg (by simp [hb])]
      rw [List.foldlM_cons]
      have hstep : gatherStep e acc l = .ok acc := by
        unfold gatherStep
        rw [if_pos hb]
        rfl
      rw [hstep]
      show ls.foldlM (gatherStep e) acc = _
      exact gatherFold_skips_blank e ls acc
    · rw [List.filter_cons_of_pos (by simp [hb]), List.foldlM_cons, List.foldlM_cons]
      cases hres : gatherStep e acc l with
      | error err => rfl
      | ok acc2 =>
        show ls.foldlM (gatherStep e) acc2 = _
        exact gatherFold_skips_blank e ls acc2

/-! ### Claim theorems and their closed instances -/

/-- Digest function for the closed examples: a constant well-formed
32-character lowercase hexadecimal digest. -/
def dgC : String → String := fun _ => "0123456789abcdef0123456789abcdef"

/-- Configuration for the closed examples: one content file per node,
rebalancing every second index line. -/
def cfgC : Config := ⟨1, 2, 5⟩

/-- The store the closed examples reach by adding `("k", "v")` to an
empty configured store on day `0`. -/
def fsC1 : Fs := Fs.node []
  [("0123456789abcdef0123456789abcdef", "v"),
   ("index", "00000000 0123456789abcdef0123456789abcdef: \"k\"\n")]

/-- Evaluation of a single `_add_to_cache` on a one-node store when
the index size does not trip the rebalancing limit. -/
theorem addToCacheS_nil_eval (cfg : Config) (dg : String → String) (fuel today : Nat)
    (root : String) (key value : String)
    (hno : fileSize ((indexContent (appendIndexLine (saveFileAt (Fs.node [] []) []
        (dg key) value) (dateStr today ++ " " ++ dg key ++ ": \"" ++ key ++ "\"\n"))).getD "")
      % cfg.rebalancingLimit ≠ 0) :
    addToCacheS cfg dg fuel today root (Fs.node [] []) key value
      = .ok (appendIndexLine (saveFileAt (Fs.node [] []) [] (dg key) value)
          (dateStr today ++ " " ++ dg key ++ ": \"" ++ key ++ "\"\n")) := by
  unfold addToCacheS
  show (findNode (dg key) (Fs.node [] []) >>= fun p =>
    if fileSize ((indexContent (appendIndexLine (saveFileAt (Fs.node [] []) p (dg key) value)
        (dateStr today ++ " " ++ dg key ++ ": \"" ++ key ++ "\"\n"))).getD "")
      % cfg.rebalancingLimit = 0
    then rebalanceGo cfg root fuel (appendIndexLine (saveFileAt (Fs.node [] []) p
      (dg key) value) (dateStr today ++ " " ++ dg key ++ ": \"" ++ key ++ "\"\n")) []
    else pure (appendIndexLine (saveFileAt (Fs.node [] []) p (dg key) value)
      (dateStr today ++ " " ++ dg key ++ ": \"" ++ key ++ "\"\n"))) = _
  rw [findNode_ok_leaf]
  show (if fileSize ((indexContent (appendIndexLine (saveFileAt (Fs.node [] []) []
        (dg key) value) (dateStr today ++ " " ++ dg key ++ ": \"" ++ key ++ "\"\n"))).getD "")
      % cfg.rebalancingLimit = 0
    then rebalanceGo cfg root fuel (appendIndexLine (saveFileAt (Fs.node [] []) []
      (dg key) value) (dateStr today ++ " " ++ dg key ++ ": \"" ++ key ++ "\"\n")) []
    else pure (appendIndexLine (saveFileAt (Fs.node [] []) [] (dg key) value)
      (dateStr today ++ " " ++ dg key ++ ": \"" ++ key ++ "\"\n"))) = _
  rw [if_neg hno]
  rfl

/-- C1: on an enabled store satisfying the structural invariant, after
`add(k, v)` (`_add_to_cache`) succeeds, `contains(k)`
(`has_store_key`) returns true and `retrieve(k)` (`_get_from_cache`)
returns exactly `v`. -/
theorem C1_add_roundtrip {cfg : Config} {dg : String → String} {fuel today : Nat}
    {root : String} {fs fs' : Fs} {key value : String}
    (hinv : rootInv fs = true) (hd : isDigest (dg key) = true)
    (hok : addToCacheS cfg dg fuel today root fs key value = .ok fs') :
    hasStoreKeyS dg fs' key = .ok true ∧ getFromCacheS dg fs' key = .ok value := by
  obtain ⟨hinv', hmem, -, -⟩ := addToCacheS_ok hinv hd hok
  obtain ⟨p, hfind, hfile⟩ := invB_resolve fs' topBound 0 (dg key) value hinv' hd hmem
  constructor
  · unfold hasStoreKeyS
    rw [hfind]
    show (pure ((fileAt fs' p (dg key)).isSome) : Except StoreErr Bool) = .ok true
    rw [hfile]
    rfl
  · unfold getFromCacheS
    rw [hfind]
    show ((match fileAt fs' p (dg key) with
      | some c => pure c
      | none => .error .fileMissing) : Except StoreErr String) = .ok value
    rw [hfile]
    rfl

theorem C1_add_roundtrip_witness :
    hasStoreKeyS dgC fsC1 "k" = .ok true ∧ getFromCacheS dgC fsC1 "k" = .ok "v" :=
  @C1_add_roundtrip cfgC dgC 1 0 "r" (Fs.node [] []) fsC1 "k" "v"
    (invB_mk (by decide) (Or.inl rfl)) (by decide)
    (addToCacheS_nil_eval cfgC dgC 1 0 "r" "k" "v" (by decide))

/-- C2: `read_cached` with the store unconfigured passes the key
straight to the producer and leaves the world untouched; enabled with
the key present it returns the stored value; enabled with the key
absent it runs the producer, stores the result, and returns the value
read back from storage (of the post-add tree), not the producer's
in-memory result.  (The lock held around the storage steps in the
source has no observable counterpart in this sequential model.) -/
theorem C2_read_cached {cfg : Config} {dg : String → String} {fuel today : Nat}
    {root : String} {fs fs1 : Fs} {rf : String → Except StoreErr String}
    {key content : String} :
    (∀ w : World, w.cachePath = none →
      readCachedW cfg dg fuel today w rf key = (rf key, w)) ∧
    (hasStoreKeyS dg fs key = .ok true →
      readCachedS cfg dg fuel today root fs rf key = (getFromCacheS dg fs key, fs)) ∧
    (hasStoreKeyS dg fs key = .ok false → rf key = .ok content →
      addToCacheS cfg dg fuel today root fs key content = .ok fs1 →
      readCachedS cfg dg fuel today root fs rf key = (getFromCacheS dg fs1 key, fs1)) := by
  refine ⟨?_, ?_, ?_⟩
  · intro w hw
    unfold readCachedW
    rw [hw]
  · intro h
    unfold readCachedS
    rw [h]
  · intro h1 h2 h3
    unfold readCachedS
    rw [h1, h2]
    show ((match addToCacheS cfg dg fuel today root fs key content with
      | .error e => ((.error e : Except StoreErr String), fs)
      | .ok fs1 => (getFromCacheS dg fs1 key, fs1))) = _
    rw [h3]

theorem C2_read_cached_witness :
    readCachedW cfgC dgC 1 0 ⟨none, Fs.empty, Fs.empty⟩ (fun _ => .ok "w") "k"
      = (.ok "w", ⟨none, Fs.empty, Fs.empty⟩) ∧
    readCachedS cfgC dgC 1 0 "r" fsC1 (fun _ => .ok "w") "k"
      = (getFromCacheS dgC fsC1 "k", fsC1) ∧
    readCachedS cfgC dgC 1 0 "r" (Fs.node [] []) (fun _ => .ok "v") "k"
      = (getFromCacheS dgC fsC1 "k", fsC1) :=
  ⟨(@C2_read_cached cfgC dgC 1 0 "r" Fs.empty Fs.empty (fun _ => .ok "w") "k" "w").1
      ⟨none, Fs.empty, Fs.empty⟩ rfl,
   (@C2_read_cached cfgC dgC 1 0 "r" fsC1 Fs.empty (fun _ => .ok "w") "k" "w").2.1
     (by unfold hasStoreKeyS fsC1
         rw [findNode_ok_leaf]
         rfl),
   (@C2_read_cached cfgC dgC 1 0 "r" (Fs.node [] []) fsC1 (fun _ => .ok "v") "k" "v").2.2
     (by unfold hasStoreKeyS
         rw [findNode_ok_leaf]
         rfl)
     rfl
     (addToCacheS_nil_eval cfgC dgC 1 0 "r" "k" "v" (by decide))⟩

/-- C6: when the producer fails — as `inner_open_url` does on a
payload containing the rejection marker — `read_cached` on an enabled
store propagates the error unmodified and the tree is returned
unchanged: no content file is written and no index line appended. -/
theorem C6_producer_error {cfg : Config} {dg : String → String} {fuel today : Nat}
    {root : String} {fs : Fs} {rf : String → Except StoreErr String} {key : String}
    {e : StoreErr}
    (hhas : hasStoreKeyS dg fs key = .ok false) (hrf : rf key = .error e) :
    readCachedS cfg dg fuel today root fs rf key = (.error e, fs) ∧
    (∀ text marker url, pyContains text marker = true →
      innerOpenUrl text (some marker) url = .error .rejected) := by
  constructor
  · unfold readCachedS
    rw [hhas, hrf]
  · intro text marker url h
    unfold innerOpenUrl
    show (if pyContains text marker then .error .rejected else .ok text
      : Except StoreErr String) = _
    rw [if_pos h]

theorem C6_producer_error_witness :
    readCachedS cfgC dgC 1 0 "r" (Fs.node [] [])
      (fun _ => innerOpenUrl "bad stuff" (some "bad") "u") "k"
      = (.error .rejected, Fs.node [] []) ∧
    innerOpenUrl "bad stuff" (some "bad") "u" = .error .rejected :=
  ⟨(@C6_producer_error cfgC dgC 1 0 "r" (Fs.node [] [])
      (fun _ => innerOpenUrl "bad stuff" (some "bad") "u") "k" StoreErr.rejected
      (by unfold hasStoreKeyS
          rw [findNode_ok_leaf]
          rfl)
      rfl).1,
   (@C6_producer_error cfgC dgC 1 0 "r" (Fs.node [] [])
      (fun _ => .error .rejected) "k" StoreErr.rejected
      (by unfold hasStoreKeyS
          rw [findNode_ok_leaf]
          rfl)
      rfl).2 "bad stuff" "bad" "u" rfl⟩

/-- C7: `retrieve_from_store` (spec-modelled, the function is missing
from `src/`): on a key whose content file is absent it returns the
sentinel absent value when `fail_on_missing` is left false and fails
with the NotFound condition when `fail_on_missing` is requested. -/
theorem C7_retrieve_absent {dg : String → String} {fs : Fs} {key : String}
    {p : List String}
    (hfind : findNode (dg key) fs = .ok p) (habs : fileAt fs p (dg key) = none) :
    retrieveFromStore dg fs key false = .ok none ∧
    retrieveFromStore dg fs key true = .error .notFound := by
  constructor
  · unfold retrieveFromStore
    rw [hfind]
    show ((match fileAt fs p (dg key) with
      | some c => pure (some c)
      | none => if false = true then .error .notFound else pure none)
      : Except StoreErr (Option String)) = _
    rw [habs]
    rfl
  · unfold retrieveFromStore
    rw [hfind]
    show ((match fileAt fs p (dg key) with
      | some c => pure (some c)
      | none => if true = true then .error .notFound else pure none)
      : Except StoreErr (Option String)) = _
    rw [habs]
    rfl

theorem C7_retrieve_absent_witness :
    retrieveFromStore dgC (Fs.node [] []) "k" false = .ok none ∧
    retrieveFromStore dgC (Fs.node [] []) "k" true = .error .notFound :=
  C7_retrieve_absent (findNode_ok_leaf _ _) rfl

/-- C8: with the store unconfigured, `read_cached` is a pass-through,
`remove_store_key`, `rebalance_store` and `empty_store` are no-ops —
but `contains` (`has_store_key`) is NOT guarded by `is_cache_used()`
and always fails: `find_node` walks the current working directory
under `path = None` and either a `TypeError` from joining `None`
(modelled `noneJoin`) or the inconsistent-tree error is raised.  This
refutes the claim that every data operation is a harmless no-op or
pass-through while unconfigured. -/
theorem C8_unconfigured_ops (dg : String → String) (w : World) (key : String)
    (hw : w.cachePath = none) :
    (∃ e, hasStoreKeyW dg w key = .error e) ∧
    (∀ (cfg : Config) (fuel today : Nat) (rf : String → Except StoreErr String),
      readCachedW cfg dg fuel today w rf key = (rf key, w)) ∧
    removeStoreKeyW dg w key = .ok w ∧
    (∀ (cfg : Config) (fuel : Nat), rebalanceStoreW cfg fuel w = .ok w) ∧
    emptyStoreW w = w := by
  refine ⟨?_, ?_, ?_, ?_, ?_⟩
  · unfold hasStoreKeyW
    rw [hw]
    rcases hcd : w.cwd.dirs with - | ⟨e0, es⟩
    · exact ⟨.noneJoin, rfl⟩
    · rcases hf : (e0 :: es).find? (fun p => decide (dg key ≤ p.1)) with - | hit
      · refine ⟨.inconsistentTree, ?_⟩
        show ((match (e0 :: es).find? (fun p => decide (dg key ≤ p.1)) with
          | some _ => Except.error StoreErr.noneJoin
          | none => Except.error StoreErr.inconsistentTree) : Except StoreErr Bool) = _
        rw [hf]
      · refine ⟨.noneJoin, ?_⟩
        show ((match (e0 :: es).find? (fun p => decide (dg key ≤ p.1)) with
          | some _ => Except.error StoreErr.noneJoin
          | none => Except.error StoreErr.inconsistentTree) : Except StoreErr Bool) = _
        rw [hf]
  · intro cfg fuel today rf
    unfold readCachedW
    rw [hw]
  · unfold removeStoreKeyW
    rw [hw]
  · intro cfg fuel
    unfold rebalanceStoreW
    rw [hw]
  · unfold emptyStoreW
    rw [hw]

theorem C8_unconfigured_ops_witness :
    (∃ e, hasStoreKeyW dgC ⟨none, Fs.empty, Fs.empty⟩ "k" = .error e) ∧
    readCachedW cfgC dgC 1 0 ⟨none, Fs.empty, Fs.empty⟩ (fun _ => .ok "w") "k"
      = (.ok "w", ⟨none, Fs.empty, Fs.empty⟩) ∧
    removeStoreKeyW dgC ⟨none, Fs.empty, Fs.empty⟩ "k" = .ok ⟨none, Fs.empty, Fs.empty⟩ ∧
    rebalanceStoreW cfgC 1 ⟨none, Fs.empty, Fs.empty⟩ = .ok ⟨none, Fs.empty, Fs.empty⟩ ∧
    emptyStoreW ⟨none, Fs.empty, Fs.empty⟩ = ⟨none, Fs.empty, Fs.empty⟩ :=
  ⟨(C8_unconfigured_ops dgC ⟨none, Fs.empty, Fs.empty⟩ "k" rfl).1,
   (C8_unconfigured_ops dgC ⟨none, Fs.empty, Fs.empty⟩ "k" rfl).2.1 cfgC 1 0 _,
   (C8_unconfigured_ops dgC ⟨none, Fs.empty, Fs.empty⟩ "k" rfl).2.2.1,
   (C8_unconfigured_ops dgC ⟨none, Fs.empty, Fs.empty⟩ "k" rfl).2.2.2.1 cfgC 1,
   (C8_unconfigured_ops dgC ⟨none, Fs.empty, Fs.empty⟩ "k" rfl).2.2.2.2⟩

/-- C3: after a sequence of adds with pairwise distinct digests and a
completed rebalance pass, no leaf directory holds more than
`max_entries_per_node` content files; the pass only permutes the
content files (a split moves them between the two new sibling
children, never deletes), and every previously added key's digest
still resolves through `find_node` to a leaf whose listing holds that
key's content file. -/
theorem C3_rebalance_invariant {cfg : Config} {dg : String → String}
    {fuel fuel2 today : Nat} {root : String} {pairs : List (String × String)}
    {fs fs1 fs2 : Fs}
    (hinv : rootInv fs = true)
    (hdg : ∀ p ∈ pairs, isDigest (dg p.1) = true)
    (hnd : (pairs.map (fun p => dg p.1)).Nodup)
    (hadds : addManyS cfg dg fuel today root fs pairs = .ok fs1)
    (hreb : rebalanceGo cfg root fuel2 fs1 [] = .ok fs2) :
    leavesBounded cfg.maxNodeFiles fs2 = true ∧
    (contentList fs2).Perm (contentList fs1) ∧
    (∀ p ∈ pairs, ∃ pth, findNode (dg p.1) fs2 = .ok pth ∧
      fileAt fs2 pth (dg p.1) = some p.2) := by
  obtain ⟨hinv1, hmem, -⟩ := addManyS_ok pairs fs fs1 hinv hdg hnd hadds
  obtain ⟨hinv2, hperm, hleaves⟩ := rebalanceGo_fact cfg root fuel2 fs1 [] topBound fs2
    hinv1 (fun _ => rfl) (fun n ns hc => nomatch hc) hreb
  refine ⟨hleaves, hperm, ?_⟩
  intro p hp
  exact invB_resolve fs2 topBound 0 (dg p.1) p.2 hinv2 (hdg p hp)
    (hperm.mem_iff.mpr (hmem p hp))

theorem C3_rebalance_invariant_witness :
    leavesBounded cfgC.maxNodeFiles fsC1 = true ∧
    (contentList fsC1).Perm (contentList fsC1) ∧
    (∀ p ∈ [("k", "v")], ∃ pth, findNode (dgC p.1) fsC1 = .ok pth ∧
      fileAt fsC1 pth (dgC p.1) = some p.2) :=
  @C3_rebalance_invariant cfgC dgC 1 1 0 "r" [("k", "v")] (Fs.node [] []) fsC1 fsC1
    (invB_mk (by decide) (Or.inl rfl))
    (by decide) (by decide)
    (by
      show (addToCacheS cfgC dgC 1 0 "r" (Fs.node [] []) "k" "v" >>= fun fs1 =>
        addManyS cfgC dgC 1 0 "r" fs1 []) = .ok fsC1
      rw [addToCacheS_nil_eval cfgC dgC 1 0 "r" "k" "v" (by decide)]
      rfl)
    (by
      rw [rebalanceGo_succ]
      rw [if_neg (by decide : ¬ (((fsC1.files.filter
          (fun f => decide (f.1 ≠ cacheIndexName))).take
            (cfgC.maxNodeFiles + 1)).length > cfgC.maxNodeFiles))]
      show (rebalanceDirs cfgC "r" 0 fsC1.dirs [] >>= fun newDirs =>
        pure (Fs.node newDirs fsC1.files)) = Except.ok fsC1
      rw [show fsC1.dirs = ([] : List (String × Fs)) from rfl, rebalanceDirs_nil]
      rfl)

/-- The two-child tree listed upper-name first that exhibits the
listing-order (not lexicographic) choice of `find_node`. -/
def fsC4 : Fs := Fs.node [("c", Fs.node [] []), ("b", Fs.node [] [])] []

/-- C4 (counterexample): on a node listing its children as
`["c", "b"]`, `find_node` of digest `"a"` descends into `"c"`, the
first listed name `≥ "a"`, although `"b"` is also `≥ "a"` and is
lexicographically smaller than `"c"` — refuting the claim that the
lexicographically smallest qualifying child is chosen. -/
theorem C4_counterexample :
    findNode "a" fsC4 = .ok ["c"] ∧
    "b" ∈ fsC4.dirs.map (fun e => e.1) ∧ ("a" : String) ≤ "b" ∧ ("b" : String) < "c" := by
  have hac : ("a" : String) ≤ "c" :=
    (hexStr_le_iff (by decide) (by decide) (by decide)).mpr (by decide)
  have hab : ("a" : String) ≤ "b" :=
    (hexStr_le_iff (by decide) (by decide) (by decide)).mpr (by decide)
  have hbc : ("b" : String) < "c" :=
    (hexStr_lt_iff (by decide) (by decide) (by decide)).mpr (by decide)
  refine ⟨?_, by decide, hab, hbc⟩
  have hfind : List.find? (fun p => decide (("a" : String) ≤ p.1))
      [("c", Fs.node [] []), ("b", Fs.node [] [])] = some ("c", Fs.node [] []) :=
    List.find?_cons_of_pos _ (decide_eq_true hac)
  show findNode "a" (Fs.node [("c", Fs.node [] []), ("b", Fs.node [] [])] []) = .ok ["c"]
  rw [findNode_step_some [] hfind, findNode_ok_leaf]
  rfl

/-- C4 (amended): `keyvalue.find_node` descends, at each node with
children, into the FIRST child in listing order whose name compares
`≥` the digest — not the lexicographically smallest such name; it
raises the inconsistent-tree error exactly when a visited node has
children but none compares `≥` the digest; a node without children is
returned as the leaf.  `urlcaching.find_node` never returns a leaf: a
generator is always truthy, so on a childless node its loop finds no
match and it raises the inconsistent-tree error instead. -/
theorem C4_find_node_first_match :
    (∀ (d : String) (e : String × Fs) (es : List (String × Fs))
      (files : List (String × String)) (hit : String × Fs),
      (e :: es).find? (fun p => decide (d ≤ p.1)) = some hit →
      findNode d (.node (e :: es) files)
        = (findNode d hit.2).map (fun rest => hit.1 :: rest)) ∧
    (∀ (d : String) (e : String × Fs) (es : List (String × Fs))
      (files : List (String × String)),
      (e :: es).find? (fun p => decide (d ≤ p.1)) = none →
      findNode d (.node (e :: es) files) = .error .inconsistentTree) ∧
    (∀ (d : String) (files : List (String × String)),
      findNode d (.node [] files) = .ok []) ∧
    (∀ (d : String) (files : List (String × String)),
      urlFindNode d (.node [] files) = .error .inconsistentTree) :=
  ⟨fun _ _ _ files _ h => findNode_step_some files h,
   fun _ _ _ files h => findNode_step_none files h,
   fun d files => findNode_ok_leaf d files,
   fun d files => urlFindNode_leaf d files⟩

theorem C4_find_node_first_match_witness :
    findNode "a" (Fs.node [("c", Fs.node [] []), ("b", Fs.node [] [])] [])
      = (findNode "a" (Fs.node [] [])).map (fun rest => "c" :: rest) ∧
    findNode "f" (Fs.node [("c", Fs.node [] []), ("b", Fs.node [] [])] [])
      = .error .inconsistentTree ∧
    findNode "a" (Fs.node [] ([] : List (String × String))) = .ok [] ∧
    urlFindNode "a" (Fs.node [] ([] : List (String × String)))
      = .error .inconsistentTree := by
  have hac : ("a" : String) ≤ "c" :=
    (hexStr_le_iff (by decide) (by decide) (by decide)).mpr (by decide)
  have hcf : ¬ (("f" : String) ≤ "c") := by
    rw [hexStr_le_iff (by decide) (by decide) (by decide)]
    decide
  have hbf : ¬ (("f" : String) ≤ "b") := by
    rw [hexStr_le_iff (by decide) (by decide) (by decide)]
    decide
  exact ⟨C4_find_node_first_match.1 "a" ("c", Fs.node [] []) [("b", Fs.node [] [])] []
      ("c", Fs.node [] []) (List.find?_cons_of_pos _ (decide_eq_true hac)),
    C4_find_node_first_match.2.1 "f" ("c", Fs.node [] []) [("b", Fs.node [] [])] []
      (by rw [List.find?_cons_of_neg _ (by simpa using hcf),
          List.find?_cons_of_neg _ (by simpa using hbf)]
          rfl),
    C4_find_node_first_match.2.2.1 "a" [],
    C4_find_node_first_match.2.2.2 "a" []⟩

/-- C9 (counterexample): the depth-0 split names produced by
`_divide_node` are `'7'` followed by 39 `'f'`s (40 characters) and 40
`'f'`s — not `"7f"` followed by 39 more `'f'`s, which would be 41
characters and is a different string. -/
theorem C9_counterexample :
    divideNodeNames [] = .ok (⟨'7' :: List.replicate 39 'f'⟩, ⟨List.replicate 40 'f'⟩) ∧
    (⟨'7' :: List.replicate 39 'f'⟩ : String) ≠ ⟨'7' :: List.replicate 40 'f'⟩ ∧
    (⟨'7' :: List.replicate 39 'f'⟩ : String).length = 40 ∧
    (⟨'7' :: List.replicate 40 'f'⟩ : String).length = 41 :=
  ⟨by decide, by decide, by decide, by decide⟩

/-- C9 (amended): at depth 0 the split produces `mid` and `MAX`, where
`MAX` is 40 `'f'`s parsing to `16 ^ 40 - 1` and `mid` parses to `MAX`
with its top bit cleared (`2 ^ 159 - 1`), rendered as 40 characters:
`'7'` followed by 39 (not "'7f' then 39") `'f'`s.  At depth `d > 0`
the lower child name is the parent's own upper bound value minus the
initial half-range width `MAX - mid` shifted right by `d` bits,
rendered as exactly 40 lowercase hexadecimal characters, and the upper
child name equals the parent's upper bound. -/
theorem C9_divide_node {nodesPath : List String} {bound : String} {level : Nat} {v : Nat}
    (hlen : nodesPath.length = level)
    (hroot : nodesPath = [] → bound = topBound)
    (hlast : ∀ n ns, nodesPath = n :: ns → (n :: ns).getLastD "" = bound)
    (hb : isBoundName bound = true)
    (hp : parseHexNat bound = some v)
    (hlb : 2 ^ (160 - level) - 1 ≤ v) :
    (divideNodeNames [] = .ok (⟨'7' :: List.replicate 39 'f'⟩, ⟨List.replicate 40 'f'⟩) ∧
     parseHexNat ⟨'7' :: List.replicate 39 'f'⟩ = some (2 ^ 159 - 1) ∧
     parseHexNat ⟨List.replicate 40 'f'⟩ = some (16 ^ 40 - 1)) ∧
    (divideNodeNames nodesPath
      = .ok (pyLower (pyHex40 ((v - (2 ^ 159 >>> level) : Nat) : Int)), bound) ∧
     isBoundName (pyLower (pyHex40 ((v - (2 ^ 159 >>> level) : Nat) : Int))) = true ∧
     parseHexNat (pyLower (pyHex40 ((v - (2 ^ 159 >>> level) : Nat) : Int)))
       = some (v - (2 ^ 159 >>> level))) :=
  ⟨⟨by decide, by decide, by decide⟩,
   divideNodeNames_spec hlen hroot hlast hb hp hlb⟩

theorem C9_divide_node_witness :
    (divideNodeNames [] = .ok (⟨'7' :: List.replicate 39 'f'⟩, ⟨List.replicate 40 'f'⟩) ∧
     parseHexNat ⟨'7' :: List.replicate 39 'f'⟩ = some (2 ^ 159 - 1) ∧
     parseHexNat ⟨List.replicate 40 'f'⟩ = some (16 ^ 40 - 1)) ∧
    (divideNodeNames [topBound]
      = .ok (pyLower (pyHex40 ((2 ^ 160 - 1 - (2 ^ 159 >>> 1) : Nat) : Int)), topBound) ∧
     isBoundName (pyLower (pyHex40 ((2 ^ 160 - 1 - (2 ^ 159 >>> 1) : Nat) : Int))) = true ∧
     parseHexNat (pyLower (pyHex40 ((2 ^ 160 - 1 - (2 ^ 159 >>> 1) : Nat) : Int)))
       = some (2 ^ 160 - 1 - (2 ^ 159 >>> 1))) :=
  @C9_divide_node [topBound] topBound 1 (2 ^ 160 - 1) rfl
    (fun h => nomatch h)
    (fun n ns h => by
      rw [← h]
      rfl)
    (by decide) (by decide) (by decide)

/-- C5 (counterexample): an index holding the single non-blank
malformed line `"foo bar\n"` — two space-separated tokens instead of
three — makes `invalidate_expired_entries` fail with the bad-value
error (the `ValueError` of the source's unpacking); malformed lines
are fatal, not skipped. -/
theorem C5_counterexample :
    invalidateExpiredS cfgC dgC 20 (Fs.node [] [("index", "foo bar\n")])
      = .error .badValue := rfl

/-- C5 (amended): `invalidate_expired_entries` does nothing when no
index exists; lines that strip to empty are skipped; a non-blank line
is split on single spaces and must yield exactly three tokens whose
first parses as a date — such a line contributes its key (the third
token shorn of its first and last character) exactly when its date is
strictly older than `as_of_date - expiry_days`; and a non-blank line
that does not yield exactly three tokens, or whose first token does
not parse as a date, makes the scan fail with the bad-value error
rather than being skipped.  Blank lines are harmless wherever they
sit: the whole call equals the same call run on the non-blank lines
alone. -/
theorem C5_invalidate_expired {cfg : Config} {dg : String → String} {asOfDate : Nat}
    {fs : Fs} {c : String} :
    (indexContent fs = none → invalidateExpiredS cfg dg asOfDate fs = .ok fs) ∧
    (indexContent fs = some c → (∀ l ∈ pyReadLines c, (pyStrip l).length = 0) →
      invalidateExpiredS cfg dg asOfDate fs = removeMultipleS dg fs []) ∧
    (∀ (cutoff day : Nat) (line s t2 kc : String),
      pySplit (pyStrip line) = [s, t2, kc] → parseDate s = some day →
      gatherExpired cutoff line
        = .ok (if cutoff > day then some ((kc.drop 1).dropRight 1) else none)) ∧
    (∀ (cutoff : Nat) (line : String) (l : List String),
      pySplit (pyStrip line) = l → l.length ≠ 3 →
      gatherExpired cutoff line = .error .badValue) ∧
    (∀ (cutoff : Nat) (line s t2 kc : String),
      pySplit (pyStrip line) = [s, t2, kc] → parseDate s = none →
      gatherExpired cutoff line = .error .badValue) ∧
    (∀ c2 : String, indexContent fs = some c2 →
      invalidateExpiredS cfg dg asOfDate fs
        = ((((pyReadLines c2).filter (fun l => decide ((pyStrip l).length ≠ 0))).foldlM
            (gatherStep (asOfDate - cfg.expiryDays)) []) >>= fun expiredKeys =>
            removeMultipleS dg fs expiredKeys)) := by
  refine ⟨?_, ?_, ?_, ?_, ?_, ?_⟩
  · intro h
    unfold invalidateExpiredS
    rw [h]
    rfl
  · intro h hblank
    unfold invalidateExpiredS
    rw [h]
    show ((pyReadLines c).foldlM (gatherStep (asOfDate - cfg.expiryDays)) []
      >>= fun expiredKeys => removeMultipleS dg fs expiredKeys) = _
    rw [gatherFold_blank _ _ _ hblank]
    rfl
  · intro cutoff day line s t2 kc hsplit hdate
    unfold gatherExpired
    rw [hsplit]
    show ((match parseDate s with
      | some keyDate =>
        .ok (if cutoff > keyDate then some ((kc.drop 1).dropRight 1) else none)
      | none => .error .badValue) : Except StoreErr (Option String)) = _
    rw [hdate]
  · intro cutoff line l hsplit hlen
    unfold gatherExpired
    rcases l with - | ⟨a, - | ⟨b, - | ⟨c3, - | ⟨d4, rest⟩⟩⟩⟩
    · rw [hsplit]
    · rw [hsplit]
    · rw [hsplit]
    · exact absurd rfl hlen
    · rw [hsplit]
  · intro cutoff line s t2 kc hsplit hdate
    unfold gatherExpired
    rw [hsplit]
    show ((match parseDate s with
      | some keyDate =>
        .ok (if cutoff > keyDate then some ((kc.drop 1).dropRight 1) else none)
      | none => .error .badValue) : Except StoreErr (Option String)) = _
    rw [hdate]
  · intro c2 h
    unfold invalidateExpiredS
    rw [h]
    show ((pyReadLines c2).foldlM (gatherStep (asOfDate - cfg.expiryDays)) []
      >>= fun expiredKeys => removeMultipleS dg fs expiredKeys) = _
    rw [gatherFold_skips_blank]

theorem C5_invalidate_expired_witness :
    invalidateExpiredS cfgC dgC 20 (Fs.node [] []) = .ok (Fs.node [] []) ∧
    invalidateExpiredS cfgC dgC 20 (Fs.node [] [("index", "\n")])
      = removeMultipleS dgC (Fs.node [] [("index", "\n")]) [] ∧
    gatherExpired 20 "00000010 0123456789abcdef0123456789abcdef: \"k\"\n"
      = .ok (if 20 > 10 then some (("\"k\"".drop 1).dropRight 1) else none) ∧
    gatherExpired 20 "foo bar\n" = .error .badValue ∧
    gatherExpired 20 "abc def \"k\"\n" = .error .badValue ∧
    invalidateExpiredS cfgC dgC 20 (Fs.node [] [("index", "\nfoo bar\n")])
      = ((((pyReadLines "\nfoo bar\n").filter
            (fun l => decide ((pyStrip l).length ≠ 0))).foldlM
          (gatherStep (20 - cfgC.expiryDays)) []) >>= fun expiredKeys =>
          removeMultipleS dgC (Fs.node [] [("index", "\nfoo bar\n")]) expiredKeys) :=
  ⟨(@C5_invalidate_expired cfgC dgC 20 (Fs.node [] []) "").1 rfl,
   (@C5_invalidate_expired cfgC dgC 20 (Fs.node [] [("index", "\n")]) "\n").2.1
     rfl (by decide),
   (@C5_invalidate_expired cfgC dgC 20 (Fs.node [] []) "").2.2.1
      20 10 "00000010 0123456789abcdef0123456789abcdef: \"k\"\n"
      "00000010" "0123456789abcdef0123456789abcdef:" "\"k\"" (by decide) (by decide),
   (@C5_invalidate_expired cfgC dgC 20 (Fs.node [] []) "").2.2.2.1
      20 "foo bar\n" ["foo", "bar"] (by decide) (by decide),
   (@C5_invalidate_expired cfgC dgC 20 (Fs.node [] []) "").2.2.2.2.1
      20 "abc def \"k\"\n" "abc" "def" "\"k\"" (by decide) (by decide),
   (@C5_invalidate_expired cfgC dgC 20 (Fs.node [] [("index", "\nfoo bar\n")])
      "").2.2.2.2.2 "\nfoo bar\n" rfl⟩

/-- C10: a single remove (`_remove_from_cache_multiple` with one key)
deletes the key's content file at the leaf `find_node` locates and
drops every index line whose second space-separated token equals
`digest(key) ++ ":"` — so all duplicate lines for the key go in one
call — keeps every line whose second token differs, and rewrites the
index file as the concatenation of the kept lines. -/
theorem C10_remove_filters_index {dg : String → String} {fs : Fs} {key content : String}
    {p : List String}
    (hidx : indexContent fs = some content)
    (hfind : findNode (dg key) fs = .ok p)
    (htok : ∀ l ∈ pyReadLines content, ∃ t, pySecondToken l = .ok t) :
    removeMultipleS dg fs [key]
      = .ok (.node (removeFileAt fs p (dg key)).dirs
          (saveFileEntry (removeFileAt fs p (dg key)).files cacheIndexName
            (String.join ((pyReadLines content).filter
              (fun l => decide (¬ pySecondToken l = .ok (dg key ++ ":"))))))) := by
  unfold removeMultipleS
  rw [hidx]
  show (([key].foldlM (removeStep dg) (fs, pyReadLines content)) >>= fun res =>
    pure (Fs.node res.1.dirs (saveFileEntry res.1.files cacheIndexName
      (String.join res.2)))) = _
  rw [List.foldlM_cons]
  rw [removeStep_eq (fs, pyReadLines content) hfind
    (filterIndexLines_spec (dg key) (pyReadLines content) htok)]
  rfl

theorem C10_remove_filters_index_witness :
    removeMultipleS dgC fsC1 ["k"]
      = .ok (.node (removeFileAt fsC1 [] (dgC "k")).dirs
          (saveFileEntry (removeFileAt fsC1 [] (dgC "k")).files cacheIndexName
            (String.join ((pyReadLines
                "00000000 0123456789abcdef0123456789abcdef: \"k\"\n").filter
              (fun l => decide (¬ pySecondToken l = .ok (dgC "k" ++ ":"))))))) :=
  C10_remove_filters_index rfl
    (by unfold fsC1
        exact findNode_ok_leaf _ _)
    (fun l hl => ⟨"0123456789abcdef0123456789abcdef:", by
      rw [show pyReadLines "00000000 0123456789abcdef0123456789abcdef: \"k\"\n"
        = ["00000000 0123456789abcdef0123456789abcdef: \"k\"\n"] from rfl] at hl
      have he : l = "00000000 0123456789abcdef0123456789abcdef: \"k\"\n" := by
        simpa using hl
      rw [he]
      rfl⟩)
